import Mathlib

/-!
Verification development for the gedcomtopdf converter
(`src/gedcomtopdf.py`).  The Python source is shallowly embedded:

* strings are `List Char` (`Str`), compared by Unicode code point as
  Python's `str` ordering does;
* `datetime.date` values are `PDate` records validated like the
  `datetime.date` constructor (proleptic Gregorian calendar);
* Python exceptions are modelled by the `PyErr` error type together
  with `Except`;
* Python float arithmetic in the layout engine is modelled by exact
  rational arithmetic over `ℚ`, with the `ZeroDivisionError` raised by
  Python on division by zero made explicit.
-/

/-- Python strings, as lists of characters. -/
abbrev Str := List Char

/-- Three-way comparison of naturals. -/
def cmpNat (a b : Nat) : Ordering :=
  if a < b then .lt else if b < a then .gt else .eq

theorem cmpNat_eq_iff (a b : Nat) : cmpNat a b = .eq ↔ a = b := by
  unfold cmpNat; split <;> [skip; split] <;> simp <;> omega

theorem cmpNat_swap (a b : Nat) : cmpNat b a = (cmpNat a b).swap := by
  unfold cmpNat
  rcases Nat.lt_trichotomy a b with h | h | h <;>
    simp [Nat.not_lt_of_lt, Ordering.swap, h]

theorem cmpNat_lt_trans {a b c : Nat} (h1 : cmpNat a b = .lt)
    (h2 : cmpNat b c = .lt) : cmpNat a c = .lt := by
  unfold cmpNat at *
  split at h1 <;> split at h2 <;> simp_all
  omega

/-- Three-way comparison of characters by code point, the order Python
uses for `str` comparison. -/
def cmpChar (a b : Char) : Ordering :=
  cmpNat a.toNat b.toNat

theorem charToNat_inj {a b : Char} (h : a.toNat = b.toNat) : a = b := by
  apply Char.eq_of_val_eq
  apply UInt32.eq_of_val_eq
  exact Fin.eq_of_val_eq h

theorem cmpChar_eq_iff (a b : Char) : cmpChar a b = .eq ↔ a = b := by
  unfold cmpChar
  rw [cmpNat_eq_iff]
  exact ⟨charToNat_inj, fun h => by rw [h]⟩

theorem cmpChar_swap (a b : Char) : cmpChar b a = (cmpChar a b).swap :=
  cmpNat_swap _ _

theorem cmpChar_lt_trans {a b c : Char} (h1 : cmpChar a b = .lt)
    (h2 : cmpChar b c = .lt) : cmpChar a c = .lt :=
  cmpNat_lt_trans h1 h2

/-- Lexicographic three-way comparison of strings by code point,
modelling Python `str` comparison. -/
def cmpChars : Str → Str → Ordering
  | [], [] => .eq
  | [], _ :: _ => .lt
  | _ :: _, [] => .gt
  | a :: as, b :: bs =>
    match cmpChar a b with
    | .eq => cmpChars as bs
    | o => o

theorem cmpChars_cons_eq {a b : Char} (h : cmpChar a b = .eq) (as bs : Str) :
    cmpChars (a :: as) (b :: bs) = cmpChars as bs := by
  simp only [cmpChars, h]

theorem cmpChars_cons_lt {a b : Char} (h : cmpChar a b = .lt) (as bs : Str) :
    cmpChars (a :: as) (b :: bs) = .lt := by
  simp only [cmpChars, h]

theorem cmpChars_cons_gt {a b : Char} (h : cmpChar a b = .gt) (as bs : Str) :
    cmpChars (a :: as) (b :: bs) = .gt := by
  simp only [cmpChars, h]

theorem cmpChars_eq_iff (a b : Str) : cmpChars a b = .eq ↔ a = b := by
  induction a generalizing b with
  | nil => cases b <;> simp [cmpChars]
  | cons x xs ih =>
    cases b with
    | nil => simp [cmpChars]
    | cons y ys =>
      rcases ho : cmpChar x y with _ | _ | _
      · rw [cmpChars_cons_lt ho]
        have hne : x ≠ y := fun he => by
          rw [he, (cmpChar_eq_iff y y).mpr rfl] at ho; cases ho
        simp [hne]
      · rw [cmpChars_cons_eq ho, ih, (cmpChar_eq_iff x y).mp ho]
        simp
      · rw [cmpChars_cons_gt ho]
        have hne : x ≠ y := fun he => by
          rw [he, (cmpChar_eq_iff y y).mpr rfl] at ho; cases ho
        simp [hne]

theorem cmpChars_swap (a b : Str) : cmpChars b a = (cmpChars a b).swap := by
  induction a generalizing b with
  | nil => cases b <;> simp [cmpChars, Ordering.swap]
  | cons x xs ih =>
    cases b with
    | nil => simp [cmpChars, Ordering.swap]
    | cons y ys =>
      rcases ho : cmpChar x y with _ | _ | _
      · have : cmpChar y x = .gt := by rw [cmpChar_swap, ho]; rfl
        rw [cmpChars_cons_lt ho, cmpChars_cons_gt this]; rfl
      · have : cmpChar y x = .eq := by rw [cmpChar_swap, ho]; rfl
        rw [cmpChars_cons_eq ho, cmpChars_cons_eq this, ih]
      · have : cmpChar y x = .lt := by rw [cmpChar_swap, ho]; rfl
        rw [cmpChars_cons_gt ho, cmpChars_cons_lt this]; rfl

theorem cmpChars_lt_trans {a b c : Str} (h1 : cmpChars a b = .lt)
    (h2 : cmpChars b c = .lt) : cmpChars a c = .lt := by
  induction a generalizing b c with
  | nil =>
    cases b with
    | nil => cases h1
    | cons y ys =>
      cases c with
      | nil => cases h2
      | cons z zs => simp [cmpChars]
  | cons x xs ih =>
    cases b with
    | nil => cases h1
    | cons y ys =>
      cases c with
      | nil => cases h2
      | cons z zs =>
        rcases hxy : cmpChar x y with _ | _ | _
        · rcases hyz : cmpChar y z with _ | _ | _
          · exact cmpChars_cons_lt (cmpChar_lt_trans hxy hyz) _ _
          · rw [← (cmpChar_eq_iff y z).mp hyz]
            exact cmpChars_cons_lt hxy _ _
          · rw [cmpChars_cons_gt hyz] at h2; cases h2
        · rcases hyz : cmpChar y z with _ | _ | _
          · rw [(cmpChar_eq_iff x y).mp hxy]
            exact cmpChars_cons_lt hyz _ _
          · rw [cmpChars_cons_eq hxy] at h1
            rw [cmpChars_cons_eq hyz] at h2
            have : cmpChar x z = .eq := by
              rw [(cmpChar_eq_iff x y).mp hxy, (cmpChar_eq_iff y z).mp hyz,
                (cmpChar_eq_iff z z).mpr rfl]
            rw [cmpChars_cons_eq this]
            exact ih h1 h2
          · rw [cmpChars_cons_gt hyz] at h2; cases h2
        · rw [cmpChars_cons_gt hxy] at h1; cases h1

/-! ## The date resolver (`Date` in the source)

`Date.FORMAT` is the anchored regular expression
`^(?P<day>\d{1,2})?\s*(?P<month>[A-Z]{3})?\s*(?P<year>\d{4})$`.
`matchFormat` below is an executable matcher for it, returning the three
captured groups.  Backtracking only matters for the length of the `day`
group (tried greedily: two digits, one digit, absent), because neither
the month class `[A-Z]` nor the year class `\d` overlaps `\s`, so the
`\s*` gaps are deterministic. -/

/-- A `datetime.date`: year, month and day. -/
structure PDate where
  year : Nat
  month : Nat
  day : Nat
deriving DecidableEq, Repr

/-- The characters matched by Python's `\s` on ASCII text. -/
def isPyWs (c : Char) : Bool :=
  c = ' ' || c = '\t' || c = '\n' || c = '\x0b' || c = '\x0c' || c = '\r'

/-- The characters matched by `[A-Z]` (code points 65 to 90). -/
def isUpperAZ (c : Char) : Bool :=
  65 ≤ c.toNat && c.toNat ≤ 90

/-- The characters matched by `\d` on ASCII text (code points 48 to 57). -/
def isDigit09 (c : Char) : Bool :=
  48 ≤ c.toNat && c.toNat ≤ 57

/-- Greedy `\s*`. -/
def dropWs (cs : Str) : Str := cs.dropWhile isPyWs

/-- Match `(?P<year>\d{4})$`: exactly four digits ending the string. -/
def tryYear (cs : Str) : Option Str :=
  match cs with
  | [a, b, c, d] =>
    if isDigit09 a && isDigit09 b && isDigit09 c && isDigit09 d then
      some [a, b, c, d]
    else none
  | _ => none

/-- Match `\s*(?P<month>[A-Z]{3})?\s*(?P<year>\d{4})$`, returning the
optional month group and the year group. -/
def tryTail (cs : Str) : Option (Option Str × Str) :=
  let cs2 := dropWs cs
  match cs2 with
  | a :: b :: c :: rest =>
    if isUpperAZ a && isUpperAZ b && isUpperAZ c then
      match tryYear (dropWs rest) with
      | some y => some (some [a, b, c], y)
      | none => none
    else
      (tryYear cs2).map (fun y => (none, y))
  | _ => (tryYear cs2).map (fun y => (none, y))

/-- Match the whole of `Date.FORMAT`, returning the day, month and year
groups.  The day alternatives are tried in the greedy order used by the
regex engine: two digits, then one digit, then no day group. -/
def matchFormat (cs : Str) : Option (Option Str × Option Str × Str) :=
  (match cs with
   | a :: b :: rest =>
     if isDigit09 a && isDigit09 b then
       (tryTail rest).map (fun p => (some [a, b], p.1, p.2))
     else none
   | _ => none) <|>
  (match cs with
   | a :: rest =>
     if isDigit09 a then
       (tryTail rest).map (fun p => (some [a], p.1, p.2))
     else none
   | _ => none) <|>
  (tryTail cs).map (fun p => ((none : Option Str), p.1, p.2))

/-- Declarative reading of `Date.FORMAT`: what it means for a string to
match the anchored pattern, as a decomposition into the day group, a
whitespace gap, the month group, a second whitespace gap and the year
group. -/
def DayG (d : Str) : Prop :=
  d = [] ∨ (d.all isDigit09 ∧ (d.length = 1 ∨ d.length = 2))

def MonG (m : Str) : Prop :=
  m = [] ∨ (m.all isUpperAZ ∧ m.length = 3)

def YearG (y : Str) : Prop :=
  y.all isDigit09 ∧ y.length = 4

def MatchSpec (cs : Str) : Prop :=
  ∃ d w1 m w2 y, cs = d ++ w1 ++ m ++ w2 ++ y ∧
    DayG d ∧ w1.all isPyWs ∧ MonG m ∧ w2.all isPyWs ∧ YearG y

theorem ws_char_cases {c : Char} (h : isPyWs c = true) :
    c = ' ' ∨ c = '\t' ∨ c = '\n' ∨ c = '\x0b' ∨ c = '\x0c' ∨ c = '\r' := by
  have h2 := h
  simp only [isPyWs, Bool.or_eq_true, decide_eq_true_eq] at h2
  tauto

theorem digit_not_ws {c : Char} (h : isDigit09 c = true) : isPyWs c = false := by
  cases hw : isPyWs c
  · rfl
  · rcases ws_char_cases hw with rfl | rfl | rfl | rfl | rfl | rfl <;>
      exact absurd h (by decide)

theorem upper_not_ws {c : Char} (h : isUpperAZ c = true) : isPyWs c = false := by
  cases hw : isPyWs c
  · rfl
  · rcases ws_char_cases hw with rfl | rfl | rfl | rfl | rfl | rfl <;>
      exact absurd h (by decide)

theorem upper_not_digit {c : Char} (h : isUpperAZ c = true) :
    isDigit09 c = false := by
  cases hd : isDigit09 c
  · rfl
  · exfalso
    simp only [isUpperAZ, Bool.and_eq_true, decide_eq_true_eq] at h
    simp only [isDigit09, Bool.and_eq_true, decide_eq_true_eq] at hd
    omega

theorem dropWs_all_ws_append {w rest : Str} (h : w.all isPyWs = true) :
    dropWs (w ++ rest) = dropWs rest := by
  induction w with
  | nil => rfl
  | cons c cs ih =>
    simp only [List.all_cons, Bool.and_eq_true] at h
    simp only [dropWs, List.cons_append, List.dropWhile_cons, h.1, if_true]
    exact ih h.2

theorem dropWs_head_not_ws {c : Char} {rest : Str} (h : isPyWs c = false) :
    dropWs (c :: rest) = c :: rest := by
  simp [dropWs, List.dropWhile_cons, h]

theorem tryYear_of_yearG {y : Str} (h : YearG y) : tryYear y = some y := by
  obtain ⟨hall, hlen⟩ := h
  match y, hlen with
  | [a, b, c, d], _ =>
    simp only [List.all_cons, List.all_nil, Bool.and_eq_true, Bool.and_true] at hall
    simp [tryYear, hall.1, hall.2.1, hall.2.2.1, hall.2.2.2]

theorem tryYear_some {cs y : Str} (h : tryYear cs = some y) :
    cs = y ∧ YearG y := by
  match cs with
  | [] | [_] | [_, _] | [_, _, _] | _ :: _ :: _ :: _ :: _ :: _ => cases h
  | [a, b, c, d] =>
    simp only [tryYear] at h
    split at h
    · next hcond =>
      injection h with h
      subst h
      refine ⟨rfl, ?_, rfl⟩
      simp only [Bool.and_eq_true] at hcond
      simp [List.all_cons, hcond.1.1.1, hcond.1.1.2, hcond.1.2, hcond.2]
    · cases h

theorem all_ws_takeWhile (cs : Str) :
    (cs.takeWhile isPyWs).all isPyWs = true :=
  List.all_takeWhile

theorem tryTail_sound {cs : Str} {p : Option Str × Str}
    (h : tryTail cs = some p) :
    ∃ w1 m w2 y, cs = w1 ++ m ++ w2 ++ y ∧ w1.all isPyWs = true ∧ MonG m ∧
      w2.all isPyWs = true ∧ YearG y := by
  have hdecomp : cs = cs.takeWhile isPyWs ++ dropWs cs :=
    (List.takeWhile_append_dropWhile isPyWs cs).symm
  rcases hcs2 : dropWs cs with _ | ⟨a, _ | ⟨b, _ | ⟨c, rest⟩⟩⟩ <;>
    simp only [tryTail, hcs2] at h
  · simp [tryYear] at h
  · simp [tryYear] at h
  · simp [tryYear] at h
  · split at h
    · next hup =>
      simp only [Bool.and_eq_true] at hup
      rcases hty : tryYear (dropWs rest) with _ | y <;> rw [hty] at h
      · cases h
      · obtain ⟨he, hY⟩ := tryYear_some hty
        have hrest : rest = rest.takeWhile isPyWs ++ y := by
          conv_lhs => rw [← List.takeWhile_append_dropWhile isPyWs rest]
          rw [← he]; rfl
        refine ⟨cs.takeWhile isPyWs, [a, b, c], rest.takeWhile isPyWs, y,
          ?_, all_ws_takeWhile cs, ?_, List.all_takeWhile, hY⟩
      
        · conv_lhs => rw [hdecomp, hcs2, hrest]
          simp
        · exact Or.inr ⟨by simp [List.all_cons, hup.1.1, hup.1.2, hup.2], rfl⟩
    · rcases (Option.map_eq_some'.mp h) with ⟨y, hy, _⟩
      obtain ⟨he, hY⟩ := tryYear_some hy
      refine ⟨cs.takeWhile isPyWs, [], [], y, ?_, all_ws_takeWhile cs,
        Or.inl rfl, rfl, hY⟩
      conv_lhs => rw [hdecomp, hcs2, he]
      simp

theorem tryTail_complete {w1 m w2 y : Str} (hw1 : w1.all isPyWs = true)
    (hm : MonG m) (hw2 : w2.all isPyWs = true) (hy : YearG y) :
    (tryTail (w1 ++ m ++ w2 ++ y)).isSome = true := by
  have hyd : dropWs y = y := by
    obtain ⟨hall, hlen⟩ := hy
    match y, hlen with
    | [a, b, c, d], _ =>
      simp only [List.all_cons, Bool.and_eq_true] at hall
      exact dropWs_head_not_ws (digit_not_ws hall.1)
  rcases hm with rfl | ⟨hall, hlen⟩
  · -- no month group: the two whitespace gaps merge in front of the year
    have hdrop : dropWs (w1 ++ [] ++ w2 ++ y) = y := by
      rw [List.append_nil, List.append_assoc, dropWs_all_ws_append hw1,
        dropWs_all_ws_append hw2, hyd]
    simp only [tryTail, hdrop]
    obtain ⟨hally, hleny⟩ := hy
    match y, hleny with
    | [a, b, c, d], _ =>
      simp only [List.all_cons, Bool.and_eq_true] at hally
      have : isUpperAZ a = false := by
        cases hu : isUpperAZ a
        · rfl
        · rw [upper_not_digit hu] at hally
          exact absurd hally.1 (by simp)
      simp [this, tryYear, hally.1, hally.2.1, hally.2.2.1, hally.2.2.2]
  · -- month group present
    match m, hlen with
    | [a, b, c], _ =>
      simp only [List.all_cons, Bool.and_eq_true] at hall
      have hdrop : dropWs (w1 ++ [a, b, c] ++ w2 ++ y) = [a, b, c] ++ (w2 ++ y) := by
        rw [List.append_assoc, List.append_assoc, dropWs_all_ws_append hw1]
        exact dropWs_head_not_ws (upper_not_ws hall.1)
      have hdrop2 : dropWs (w2 ++ y) = y := by
        rw [dropWs_all_ws_append hw2, hyd]
      simp only [tryTail, hdrop, List.cons_append, List.nil_append]
      simp [hall.1, hall.2.1, hall.2.2.1, hdrop2, tryYear_of_yearG hy]

theorem orElse_isSome {α : Type} (a b : Option α) :
    (a <|> b).isSome = (a.isSome || b.isSome) := by
  cases a <;> simp

theorem orElse_eq_some {α : Type} (a b : Option α) (v : α) :
    (a <|> b) = some v ↔ a = some v ∨ (a = none ∧ b = some v) := by
  cases a <;> simp

/-- Soundness of the `Date.FORMAT` matcher: a successful match gives a
decomposition witnessing the declarative pattern. -/
theorem matchFormat_sound {cs : Str} (h : (matchFormat cs).isSome = true) :
    MatchSpec cs := by
  rcases ho : matchFormat cs with _ | g
  · rw [ho] at h; cases h
  · clear h
    simp only [matchFormat] at ho
    rw [orElse_eq_some] at ho
    rcases ho with h1 | ⟨_, ho⟩
    · -- two-digit day group
      rcases cs with _ | ⟨a, _ | ⟨b, rest⟩⟩
      · cases h1
      · cases h1
      · rcases hdig : (isDigit09 a && isDigit09 b) with _ | _
        · simp [hdig] at h1
        · simp only [hdig, if_pos rfl, if_true] at h1
          rcases Option.map_eq_some'.mp h1 with ⟨p, hp, _⟩
          obtain ⟨w1, m, w2, y, he, hw1, hm, hw2, hy⟩ := tryTail_sound hp
          refine ⟨[a, b], w1, m, w2, y, by rw [he]; simp, ?_, hw1, hm, hw2, hy⟩
          simp only [Bool.and_eq_true] at hdig
          exact Or.inr ⟨by simp [hdig.1, hdig.2], Or.inr rfl⟩
    · rw [orElse_eq_some] at ho
      rcases ho with h1 | ⟨_, h1⟩
      · -- one-digit day group
        rcases cs with _ | ⟨a, rest⟩
        · cases h1
        · rcases hdig : isDigit09 a with _ | _
          · simp [hdig] at h1
          · simp only [hdig, if_pos rfl, if_true] at h1
            rcases Option.map_eq_some'.mp h1 with ⟨p, hp, _⟩
            obtain ⟨w1, m, w2, y, he, hw1, hm, hw2, hy⟩ := tryTail_sound hp
            refine ⟨[a], w1, m, w2, y, by rw [he]; simp, ?_, hw1, hm, hw2, hy⟩
            exact Or.inr ⟨by simp [hdig], Or.inl rfl⟩
      · -- no day group
        rcases Option.map_eq_some'.mp h1 with ⟨p, hp, _⟩
        obtain ⟨w1, m, w2, y, he, hw1, hm, hw2, hy⟩ := tryTail_sound hp
        exact ⟨[], w1, m, w2, y, by rw [he]; rfl, Or.inl rfl, hw1, hm, hw2, hy⟩

/-- Completeness of the `Date.FORMAT` matcher: every string admitting a
pattern decomposition is matched. -/
theorem matchFormat_complete {cs : Str} (h : MatchSpec cs) :
    (matchFormat cs).isSome = true := by
  obtain ⟨d, w1, m, w2, y, he, hd, hw1, hm, hw2, hy⟩ := h
  subst he
  simp only [matchFormat, orElse_isSome, Bool.or_eq_true]
  rcases hd with rfl | ⟨hall, hlen⟩
  · -- no day: the third alternative matches
    right; right
    rw [List.nil_append, Option.isSome_map']
    exact tryTail_complete hw1 hm hw2 hy
  · rcases hlen with h1 | h2
    · -- one-digit day: the second alternative matches
      match d, h1 with
      | [a], _ =>
        right
        simp only [List.all_cons, List.all_nil, Bool.and_true] at hall
        left
        simp only [List.cons_append, List.nil_append, hall, if_pos rfl, if_true]
        rw [Option.isSome_map']
        exact tryTail_complete hw1 hm hw2 hy
    · -- two-digit day: the first alternative matches
      match d, h2 with
      | [a, b], _ =>
        left
        simp only [List.all_cons, List.all_nil, Bool.and_true, Bool.and_eq_true] at hall
        simp only [List.cons_append, List.nil_append, hall.1, hall.2,
          Bool.and_self, if_pos rfl, if_true]
        rw [Option.isSome_map']
        exact tryTail_complete hw1 hm hw2 hy

/-! ## Python errors, date construction and formatting -/

/-- The Python exceptions the embedded code can raise.  `formatError` is
the `AssertionError("Unexpected date ...")` raised by `Date.date` (the
spec's `DateFormatError`); `valueError` covers `list.index` misses and
out-of-range `datetime.date` arguments; `typeError` is the `TypeError`
raised by an unsupported `<` comparison; `attributeError` is the
`AttributeError` from accessing an attribute on `None`;
`zeroDivisionError` is Python's division by zero. -/
inductive PyErr where
  | formatError
  | valueError
  | typeError
  | attributeError
  | zeroDivisionError
deriving DecidableEq, Repr

/-- The table `Date.MONTHS`, the fixed 12-entry month-abbreviation table. -/
def MONTHS : List Str :=
  [['J','A','N'], ['F','E','B'], ['M','A','R'], ['A','P','R'],
   ['M','A','Y'], ['J','U','N'], ['J','U','L'], ['A','U','G'],
   ['S','E','P'], ['O','C','T'], ['N','O','V'], ['D','E','C']]

/-- Model of `MONTHS.index(m)`: the position of `m` in the table, or a
`ValueError` when absent. -/
def monthIndex (m : Str) : Except PyErr Nat :=
  match MONTHS.findIdx? (fun x => x = m) with
  | some i => .ok i
  | none => .error .valueError

/-- Model of `int(...)` on a digit group. -/
def digitsToNat (cs : Str) : Nat :=
  cs.foldl (fun acc c => acc * 10 + (c.toNat - 48)) 0

/-- Proleptic-Gregorian leap years, as used by `datetime.date`. -/
def isLeap (y : Nat) : Bool :=
  y % 4 = 0 && (y % 100 ≠ 0 || y % 400 = 0)

/-- Days in a month of a given year, as validated by `datetime.date`. -/
def daysInMonth (y m : Nat) : Nat :=
  if m = 2 then (if isLeap y then 29 else 28)
  else if m = 4 || m = 6 || m = 9 || m = 11 then 30
  else 31

/-- The `datetime.date(year, month, day)` constructor: validates ranges
and raises `ValueError` outside them. -/
def mkDate (y m d : Nat) : Except PyErr PDate :=
  if 1 ≤ y && y ≤ 9999 && 1 ≤ m && m ≤ 12 && 1 ≤ d && d ≤ daysInMonth y m then
    .ok ⟨y, m, d⟩
  else .error .valueError

/-- Model of `Date.date` on a present raw string: match `Date.FORMAT` (raising
the `AssertionError` — the spec's DateFormatError — when it fails), then
build a full date when both the day and the month group matched, and a
year-only date `(year, 1, 1)` otherwise. -/
def dateOfChars (cs : Str) : Except PyErr PDate :=
  match matchFormat cs with
  | none => .error .formatError
  | some (dayG, monG, yearG) =>
    match dayG, monG with
    | some dg, some mg =>
      match monthIndex mg with
      | .error e => .error e
      | .ok i => mkDate (digitsToNat yearG) (i + 1) (digitsToNat dg)
    | _, _ => mkDate (digitsToNat yearG) 1 1

/-- Model of `Date.date` on an optional raw string: `None` stays `None`. -/
def dateOfValue (v : Option Str) : Except PyErr (Option PDate) :=
  match v with
  | none => .ok none
  | some cs => (dateOfChars cs).map some

/-- The result of `format_date`: the empty string for `None`, the bare
year for dates on January 1st, and otherwise the string produced by the
external locale-aware formatter (`babel.dates.format_date`, kept
abstract as a constructor carrying the date). -/
inductive Rendered where
  | emptyStr
  | bare (year : Nat)
  | localized (d : PDate)
deriving DecidableEq, Repr

/-- Model of `format_date` on an optional parsed date. -/
def formatDate (d : Option PDate) : Rendered :=
  match d with
  | none => .emptyStr
  | some d => if d.month = 1 && d.day = 1 then .bare d.year else .localized d

/-! ## The layout engine (`place_image`)

Arithmetic is over `ℚ` (the Python source computes with floats); the
explicit zero tests stand for the `ZeroDivisionError` Python raises on
`x / 0`, which exact rational arithmetic would otherwise hide. -/

/-- Model of `place_image(width, height, max_width, max_height)`. -/
def placeImage (width height maxWidth maxHeight : ℚ) :
    Except PyErr (Bool × ℚ × ℚ) :=
  let rotate := decide (width > height)
  let w := if width > height then height else width
  let h := if width > height then width else height
  if w = 0 then .error .zeroDivisionError
  else
    let ratio := h / w
    if maxWidth * ratio ≤ maxHeight then
      .ok (rotate, maxWidth, maxWidth * ratio)
    else if ratio = 0 then .error .zeroDivisionError
    else .ok (rotate, maxHeight / ratio, maxHeight)

deriving instance DecidableEq for Except


/-! ## The tokenizer (`Tree.read`) and the line-break marker

`Tree.read` strips every physical line, starts a new logical entry on
every line matching `Tree.LINE_FORMAT`
(`^(?P<level>[0-9]) ((?P<id>@[-a-zA-Z0-9]+@) )?(?P<tag>[_A-Z0-9]+)( (?P<value>.*))?$`)
and appends non-matching lines to the current block; blocks are joined
with the two-character marker `\n` (backslash, `n`).  The loop flushes
the previous block when a matching line arrives, and the function
returns without flushing the final block. -/

/-- The marker `"\n"` (backslash then `n`) used by `Tree.read` to join
continuation lines, and expanded back by `Image.note`. -/
def marker : Str := ['\\', 'n']

/-- The characters of the `[-a-zA-Z0-9]` class of the `id` group. -/
def isIdChar (c : Char) : Bool :=
  c = '-' || (97 ≤ c.toNat && c.toNat ≤ 122) || isUpperAZ c || isDigit09 c

/-- The characters of the `[_A-Z0-9]` class of the `tag` group. -/
def isTagChar (c : Char) : Bool :=
  c = '_' || isUpperAZ c || isDigit09 c

/-- Match `(?P<tag>[_A-Z0-9]+)( (?P<value>.*))?$`: a nonempty tag run
followed by the end of the line or a space and arbitrary text. -/
def matchTagOn (cs : Str) : Bool :=
  let run := cs.takeWhile isTagChar
  run ≠ [] &&
    (match cs.drop run.length with
     | [] => true
     | c :: _ => c = ' ')

/-- Match `((?P<id>@[-a-zA-Z0-9]+@) )?` followed by the tag part.  When
the optional id group fails, the regex engine falls back to matching the
tag directly (which then also fails on a leading `@`, as `@` is not a
tag character). -/
def matchIdTagOn (cs : Str) : Bool :=
  (match cs with
   | '@' :: rest =>
     let run := rest.takeWhile isIdChar
     run ≠ [] &&
       (match rest.drop run.length with
        | '@' :: ' ' :: rest2 => matchTagOn rest2
        | _ => false)
   | _ => false) ||
  matchTagOn cs

/-- Whether a stripped physical line matches `Tree.LINE_FORMAT`. -/
def lineMatches (cs : Str) : Bool :=
  match cs with
  | c0 :: ' ' :: rest => isDigit09 c0 && matchIdTagOn rest
  | _ => false

/-- Python `str.strip()` on ASCII text. -/
def pyStrip (cs : Str) : Str :=
  ((cs.dropWhile isPyWs).reverse.dropWhile isPyWs).reverse

/-- The join `"\n".join(block)`, the literal join of a block's lines with the
embedded line-break marker. -/
def joinMarker : List Str → Str
  | [] => []
  | [l] => l
  | l :: rest => l ++ marker ++ joinMarker rest

/-- Joining lines with a real line break, i.e. the original multi-line
text the block came from. -/
def joinNl : List Str → Str
  | [] => []
  | [l] => l
  | l :: rest => l ++ '\n' :: joinNl rest

/-- Model of `value.replace("\n", "\n")` as performed by `Image.note`: replace
every occurrence of the two-character marker by a real line break,
scanning left to right. -/
def expandMarker : Str → Str
  | '\\' :: 'n' :: rest => '\n' :: expandMarker rest
  | c :: rest => c :: expandMarker rest
  | [] => []

/-- Whether the two-character marker occurs in a string. -/
def containsMarker : Str → Bool
  | '\\' :: 'n' :: _ => true
  | _ :: rest => containsMarker rest
  | [] => false

/-- The loop body of `Tree.read`: `lines` are the flushed logical
entries, `block` the pending one.  The final block is not flushed when
the input ends — faithfully to the source, whose `flush_block()` is only
invoked from inside the loop. -/
def tokenizeGo : List Str → List Str → List Str → List Str
  | [], lines, _block => lines
  | raw :: rest, lines, block =>
    let l := pyStrip raw
    if lineMatches l then
      tokenizeGo rest
        (if block = [] then lines else lines ++ [joinMarker block]) [l]
    else
      tokenizeGo rest lines (block ++ [l])

/-- Model of `Tree.read`: the logical entries produced from the physical lines of
the source file. -/
def tokenize (input : List Str) : List Str :=
  tokenizeGo input [] []


theorem expandMarker_marker (t : Str) :
    expandMarker ('\\' :: 'n' :: t) = '\n' :: expandMarker t := rfl

theorem expandMarker_cons_ne {c : Char} (rest : Str) (h : c ≠ '\\') :
    expandMarker (c :: rest) = c :: expandMarker rest := by
  cases rest <;> simp [expandMarker, h]

theorem expandMarker_backslash (rest : Str) (h : ∀ t, rest ≠ 'n' :: t) :
    expandMarker ('\\' :: rest) = '\\' :: expandMarker rest := by
  cases rest with
  | nil => rfl
  | cons d t =>
    by_cases hd : d = 'n'
    · exact absurd (by rw [hd]) (h t)
    · simp [expandMarker, hd]

theorem containsMarker_cons {c : Char} {rest : Str}
    (h : containsMarker (c :: rest) = false) : containsMarker rest = false := by
  cases rest with
  | nil => rfl
  | cons d t =>
    by_cases hc : c = '\\' <;> by_cases hd : d = 'n'
    · subst hc; subst hd; simp [containsMarker] at h
    · subst hc
      revert h
      simp [containsMarker, hd]
    · subst hd
      revert h
      simp [containsMarker, hc]
    · revert h
      simp [containsMarker, hc]

theorem containsMarker_head {rest : Str}
    (h : containsMarker ('\\' :: rest) = false) : ∀ t, rest ≠ 'n' :: t := by
  intro t he
  subst he
  simp [containsMarker] at h

/-- A string free of the marker expands to itself. -/
theorem expandMarker_id {l : Str} (h : containsMarker l = false) :
    expandMarker l = l := by
  induction l with
  | nil => rfl
  | cons c rest ih =>
    by_cases hc : c = '\\'
    · subst hc
      rw [expandMarker_backslash rest (containsMarker_head h)]
      rw [ih (containsMarker_cons h)]
    · rw [expandMarker_cons_ne rest hc, ih (containsMarker_cons h)]

/-- Expansion consumes a marker-free prefix untouched and then fires on
the marker that follows it. -/
theorem expandMarker_append_marker {l : Str} (rest : Str)
    (h : containsMarker l = false) :
    expandMarker (l ++ '\\' :: 'n' :: rest) = l ++ '\n' :: expandMarker rest := by
  induction l with
  | nil => rfl
  | cons c t ih =>
    by_cases hc : c = '\\'
    · subst hc
      have hne : ∀ u, t ++ '\\' :: 'n' :: rest ≠ 'n' :: u := by
        intro u he
        cases t with
        | nil => simp at he
        | cons d t2 =>
          simp only [List.cons_append, List.cons.injEq] at he
          have := containsMarker_head h
          exact this t2 (by rw [he.1])
      rw [List.cons_append, expandMarker_backslash _ hne,
        ih (containsMarker_cons h)]
      simp
    · rw [List.cons_append, expandMarker_cons_ne _ hc,
        ih (containsMarker_cons h)]
      simp

/-- Round-trip for marker-free lines: joining with the embedded marker
and expanding afterwards yields the lines joined with real line breaks. -/
theorem expand_joinMarker {lines : List Str}
    (h : ∀ l ∈ lines, containsMarker l = false) :
    expandMarker (joinMarker lines) = joinNl lines := by
  induction lines with
  | nil => rfl
  | cons l rest ih =>
    cases rest with
    | nil => exact expandMarker_id (h l (by simp))
    | cons l2 rest2 =>
      have h1 : containsMarker l = false := h l (by simp)
      have h2 : ∀ x ∈ l2 :: rest2, containsMarker x = false := by
        intro x hx
        exact h x (by simp [hx])
      show expandMarker (l ++ marker ++ joinMarker (l2 :: rest2)) = _
      rw [List.append_assoc]
      show expandMarker (l ++ '\\' :: 'n' :: joinMarker (l2 :: rest2)) = _
      rw [expandMarker_append_marker _ h1, ih h2]
      rfl

/-! ## The entity model (`Name`, `Image` nodes, `Individual`)

Record nodes are abstracted to the fields the assembler reads through
the accessors of the source's entity classes.  `Individual.id` is the
document-unique cross-reference identifier; because
`Tree.individual_by_id` caches one `Individual` object per identifier,
equality of `id` models Python object identity for roster entries. -/

/-- The fields the `Name` view reads from a `NAME` node: the first
`GIVN`, `SURN` and `_MARNM` child values, each possibly absent. -/
structure NameRec where
  given : Option Str
  surname : Option Str
  maiden : Option Str
deriving DecidableEq, Repr

/-- The fields the `Image` view reads from an `OBJE` node: the first
`TITL` child value and the note, each possibly absent. -/
structure Obje where
  title : Option Str
  note : Option Str
deriving DecidableEq, Repr

/-- An individual record: its identifier, its first `NAME` node (if
any), its `BIRT` node (if any) with the optional raw `DATE` value, and
its `OBJE` nodes. -/
structure Individual where
  id : Nat
  name : Option NameRec
  birth : Option (Option Str)
  objes : List Obje
deriving DecidableEq, Repr

/-- Python truthiness of an optional string: `None` and `""` are falsy. -/
def truthyStr (s : Option Str) : Bool :=
  match s with
  | none => false
  | some s => !s.isEmpty

/-- Model of `str(x)` for an optional string, as interpolated by `"{}".format`:
`None` prints as `"None"`. -/
def pyStrOf (s : Option Str) : Str :=
  match s with
  | none => ['N', 'o', 'n', 'e']
  | some s => s

/-- Model of `Name.last_name`: the maiden name if truthy, else the surname. -/
def lastName (n : NameRec) : Option Str :=
  if truthyStr n.maiden then n.maiden else n.surname

/-- Model of `Name.__str__`: `"{given} {maiden} (f. {surname})"` when a maiden
name is present (truthy), else `"{given} {surname}"`. -/
def fullName (n : NameRec) : Str :=
  if truthyStr n.maiden then
    pyStrOf n.given ++ ' ' :: pyStrOf n.maiden ++
      [' ', '(', 'f', '.', ' '] ++ pyStrOf n.surname ++ [')']
  else
    pyStrOf n.given ++ ' ' :: pyStrOf n.surname

/-- Model of `Individual.build_images`: keep only the `OBJE` nodes whose title is
truthy (present and nonempty). -/
def buildImages (i : Individual) : List Obje :=
  i.objes.filter (fun o => truthyStr o.title)

/-- The sort key of `Tree.build_individuals`:
`(last_name, str(name), date)`.  The third component is `none` when the
`BIRT` node exists but has no `DATE` value (Python `None`). -/
abbrev Key := Option Str × Str × Option PDate

/-- The effective birth date: the parsed date of the `BIRT` node when
one exists, else the sentinel `date(1, 1, 1)`. -/
def effDate (i : Individual) : Except PyErr (Option PDate) :=
  match i.birth with
  | none => .ok (some ⟨1, 1, 1⟩)
  | some v => dateOfValue v

/-- Compute an individual's sort key, in the evaluation order of the
source: the date first (its parse errors surface first), then the name
accessors (an `AttributeError` when there is no `NAME` node). -/
def keyOf (i : Individual) : Except PyErr Key :=
  match effDate i with
  | .error e => .error e
  | .ok d =>
    match i.name with
    | none => .error .attributeError
    | some nm => .ok (lastName nm, fullName nm, d)

/-! ## Python comparison of keys and pairs -/

/-- Python comparison of the optional-string component: `None == None`
holds, two strings compare lexicographically, and `None` against a
string raises `TypeError`. -/
def cmpOptStr : Option Str → Option Str → Except PyErr Ordering
  | none, none => .ok .eq
  | some a, some b => .ok (cmpChars a b)
  | _, _ => .error .typeError

/-- The `datetime.date` ordering: lexicographic on (year, month, day). -/
def cmpPDate (a b : PDate) : Ordering :=
  match cmpNat a.year b.year with
  | .eq =>
    match cmpNat a.month b.month with
    | .eq => cmpNat a.day b.day
    | o => o
  | o => o

/-- Python comparison of the date component: `None == None` holds, two
dates compare as dates, `None` against a date raises `TypeError`. -/
def cmpOptDate : Option PDate → Option PDate → Except PyErr Ordering
  | none, none => .ok .eq
  | some a, some b => .ok (cmpPDate a b)
  | _, _ => .error .typeError

/-- Python tuple comparison of two sort keys: scan for the first
component where the values differ and compare there; a `TypeError` from
an incomparable component pair propagates. -/
def keyCmpE (k1 k2 : Key) : Except PyErr Ordering :=
  match cmpOptStr k1.1 k2.1 with
  | .error e => .error e
  | .ok .lt => .ok .lt
  | .ok .gt => .ok .gt
  | .ok .eq =>
    match cmpChars k1.2.1 k2.2.1 with
    | .lt => .ok .lt
    | .gt => .ok .gt
    | .eq => cmpOptDate k1.2.2 k2.2.2

/-- A sorted-pair element: the key together with its individual, as in
`pairs.append(((last_name, str(name), date), indiv))`. -/
abbrev Elem := Key × Individual

instance : DecidableEq Key := inferInstance

instance : DecidableEq Elem := inferInstance

/-- Python `<` on two pair elements.  When the keys are equal the tuple
comparison falls through to the `Individual` objects: the same object
compares not-less, two distinct objects raise `TypeError` (class
`Individual` defines no ordering). -/
def pyLt (a b : Elem) : Except PyErr Bool :=
  match keyCmpE a.1 b.1 with
  | .error e => .error e
  | .ok .lt => .ok true
  | .ok .gt => .ok false
  | .ok .eq => if a.2.id = b.2.id then .ok false else .error .typeError

/-- Stable insertion of an element into a sorted list using Python `<`:
the element goes in front of the first strictly greater entry, so equal
elements keep their relative order, as `sorted` guarantees.  A
comparison error aborts the sort like a Python exception. -/
def pyInsert (x : Elem) : List Elem → Except PyErr (List Elem)
  | [] => .ok [x]
  | y :: ys =>
    match pyLt x y with
    | .error e => .error e
    | .ok true => .ok (x :: y :: ys)
    | .ok false =>
      match pyInsert x ys with
      | .error e => .error e
      | .ok r => .ok (y :: r)

/-- The call `sorted(pairs)` modelled as a stable insertion sort driven by
Python `<`.  On inputs where every performed comparison succeeds this
computes what `sorted` computes (both are stable comparison sorts); a
comparison `TypeError` aborts the call. -/
def pySort : List Elem → Except PyErr (List Elem)
  | [] => .ok []
  | x :: xs =>
    match pySort xs with
    | .error e => .error e
    | .ok r => pyInsert x r

/-! ## Serial assignment and the final roster -/

/-- Model of `names.setdefault(str(entry.name), []).append(entry)`: append a
roster position to the group of its rendered name, keeping the
insertion order of a Python dict. -/
def addG : List (Str × List Nat) → Str → Nat → List (Str × List Nat)
  | [], s, i => [(s, [i])]
  | (t, l) :: rest, s, i =>
    if t = s then (t, l ++ [i]) :: rest else (t, l) :: addG rest s i

/-- Model of `str(entry.name)` as evaluated on a roster entry: `str(None)` when
the individual has no `NAME` node, else the rendered name. -/
def fullName2 (i : Individual) : Str :=
  match i.name with
  | none => ['N', 'o', 'n', 'e']
  | some nm => fullName nm

/-- Build the name-group table over the roster positions, scanning the
sorted roster in order. -/
def mkGroupsGo (p : Nat) : List Individual → List (Str × List Nat) →
    List (Str × List Nat)
  | [], acc => acc
  | e :: rest, acc => mkGroupsGo (p + 1) rest (addG acc (fullName2 e) p)

/-- All name groups of a roster. -/
def mkGroups (roster : List Individual) : List (Str × List Nat) :=
  mkGroupsGo 0 roster []

/-- The position of `q` in a group's member list. -/
def idxOf (q : Nat) : List Nat → Option Nat
  | [] => none
  | x :: xs => if x = q then some 0 else (idxOf q xs).map (· + 1)

/-- The disambiguation serial of roster position `p`: groups of size one
get none, larger groups get 1-based ordinals in group order. -/
def serialAt (gs : List (Str × List Nat)) (p : Nat) : Option Nat :=
  match gs with
  | [] => none
  | (_, l) :: rest =>
    match idxOf p l with
    | some k => if l.length = 1 then none else some (k + 1)
    | none => serialAt rest p

/-- Number a list of images with consecutive serials from `start`. -/
def numberImages (start : Nat) : List Obje → List (Obje × Nat)
  | [] => []
  | o :: rest => (o, start) :: numberImages (start + 1) rest

/-- A roster entry after `build_individuals` finishes: the individual,
its disambiguation serial, and its images with their global serials. -/
structure FinalInd where
  ind : Individual
  serial : Option Nat
  images : List (Obje × Nat)
deriving DecidableEq, Repr

/-- Walk the sorted roster once, attaching disambiguation serials and
numbering every kept image with a strictly increasing global serial
starting at 1. -/
def finalizeGo (gs : List (Str × List Nat)) :
    Nat → Nat → List Individual → List FinalInd
  | _, _, [] => []
  | p, ctr, e :: rest =>
    ⟨e, serialAt gs p, numberImages ctr (buildImages e)⟩ ::
      finalizeGo gs (p + 1) (ctr + (buildImages e).length) rest

/-- The serial-assignment phase of `Tree.build_individuals` over the
sorted roster. -/
def finalize (roster : List Individual) : List FinalInd :=
  finalizeGo (mkGroups roster) 0 1 roster

/-- Compute all sort keys, in roster input order, stopping at the first
raised error as the Python loop does. -/
def mapKeys : List Individual → Except PyErr (List Elem)
  | [] => .ok []
  | i :: rest =>
    match keyOf i with
    | .error e => .error e
    | .ok k =>
      match mapKeys rest with
      | .error e => .error e
      | .ok r => .ok ((k, i) :: r)

/-- The key-building and sorting phase of `Tree.build_individuals`:
`pairs = sorted(pairs)`. -/
def buildPairs (inds : List Individual) : Except PyErr (List Elem) :=
  match mapKeys inds with
  | .error e => .error e
  | .ok ps => pySort ps

/-- Model of `Tree.build_individuals`: sort the individuals by key, then assign
disambiguation serials per rendered-name group and global image
serials. -/
def buildIndividuals (inds : List Individual) :
    Except PyErr (List FinalInd) :=
  match buildPairs inds with
  | .error e => .error e
  | .ok ps => .ok (finalize (ps.map Prod.snd))

/-- The images for which `images_to_html` emits a gallery page: those of
the individual's kept images whose note is truthy (the source logs a
warning and skips note-less images). -/
def galleryPages (f : FinalInd) : List (Obje × Nat) :=
  f.images.filter (fun pr => truthyStr pr.1.note)

/-- The per-individual image index emitted by `individual_to_html`:
serial and title of every kept image. -/
def imageIndex (f : FinalInd) : List (Nat × Option Str) :=
  f.images.map (fun pr => (pr.2, pr.1.title))

/-! ## Lawfulness of the key comparison -/

theorem cmpPDate_eq_iff (a b : PDate) : cmpPDate a b = .eq ↔ a = b := by
  obtain ⟨ay, am, ad⟩ := a
  obtain ⟨cy, cm, cd⟩ := b
  constructor
  · intro h
    unfold cmpPDate at h
    simp only at h
    rcases hy : cmpNat ay cy with _ | _ | _ <;> simp only [hy] at h <;>
      try cases h
    rcases hm : cmpNat am cm with _ | _ | _ <;> simp only [hm] at h <;>
      try cases h
    rw [(cmpNat_eq_iff _ _).mp hy, (cmpNat_eq_iff _ _).mp hm,
      (cmpNat_eq_iff _ _).mp h]
  · intro h
    injection h with h1 h2 h3
    subst h1; subst h2; subst h3
    unfold cmpPDate
    rw [(cmpNat_eq_iff ay ay).mpr rfl, (cmpNat_eq_iff am am).mpr rfl,
      (cmpNat_eq_iff ad ad).mpr rfl]

theorem cmpPDate_swap (a b : PDate) : cmpPDate b a = (cmpPDate a b).swap := by
  unfold cmpPDate
  rw [cmpNat_swap a.year, cmpNat_swap a.month, cmpNat_swap a.day]
  rcases cmpNat a.year b.year with _ | _ | _ <;>
    rcases cmpNat a.month b.month with _ | _ | _ <;> rfl

theorem cmpPDate_lt_trans {a b c : PDate} (h1 : cmpPDate a b = .lt)
    (h2 : cmpPDate b c = .lt) : cmpPDate a c = .lt := by
  unfold cmpPDate at *
  rcases hy1 : cmpNat a.year b.year with _ | _ | _ <;> rw [hy1] at h1
  case gt => cases h1
  case lt =>
    rcases hy2 : cmpNat b.year c.year with _ | _ | _ <;> rw [hy2] at h2
    case lt => rw [cmpNat_lt_trans hy1 hy2]
    case eq => rw [← (cmpNat_eq_iff _ _).mp hy2, hy1]
    case gt => cases h2
  case eq =>
    have hyv : a.year = b.year := (cmpNat_eq_iff _ _).mp hy1
    rcases hy2 : cmpNat b.year c.year with _ | _ | _ <;> rw [hy2] at h2
    case lt => rw [hyv, hy2]
    case gt => cases h2
    case eq =>
      have hyv2 : b.year = c.year := (cmpNat_eq_iff _ _).mp hy2
      rw [hyv, hyv2, (cmpNat_eq_iff c.year c.year).mpr rfl]
      rcases hm1 : cmpNat a.month b.month with _ | _ | _ <;> rw [hm1] at h1
      case gt => cases h1
      case lt =>
        rcases hm2 : cmpNat b.month c.month with _ | _ | _ <;> rw [hm2] at h2
        case lt => rw [cmpNat_lt_trans hm1 hm2]
        case eq => rw [← (cmpNat_eq_iff _ _).mp hm2, hm1]
        case gt => cases h2
      case eq =>
        have hmv : a.month = b.month := (cmpNat_eq_iff _ _).mp hm1
        rcases hm2 : cmpNat b.month c.month with _ | _ | _ <;> rw [hm2] at h2
        case lt => rw [hmv, hm2]
        case gt => cases h2
        case eq =>
          have hmv2 : b.month = c.month := (cmpNat_eq_iff _ _).mp hm2
          rw [hmv, hmv2, (cmpNat_eq_iff c.month c.month).mpr rfl]
          exact cmpNat_lt_trans h1 h2

theorem cmpOptStr_eq_imp {a b : Option Str} (h : cmpOptStr a b = .ok .eq) :
    a = b := by
  rcases a with _ | x <;> rcases b with _ | y
  · rfl
  · cases h
  · cases h
  · simp only [cmpOptStr] at h
    injection h with h
    rw [(cmpChars_eq_iff x y).mp h]

theorem cmpOptStr_self (a : Option Str) : cmpOptStr a a = .ok .eq := by
  rcases a with _ | x
  · rfl
  · simp only [cmpOptStr, (cmpChars_eq_iff x x).mpr rfl]

theorem cmpOptStr_swap (a b : Option Str) :
    cmpOptStr b a = (cmpOptStr a b).map Ordering.swap := by
  rcases a with _ | x <;> rcases b with _ | y
  · rfl
  · rfl
  · rfl
  · show Except.ok (cmpChars y x) = _
    rw [cmpChars_swap x y]
    rfl

theorem cmpOptStr_lt_trans {a b c : Option Str}
    (h1 : cmpOptStr a b = .ok .lt) (h2 : cmpOptStr b c = .ok .lt) :
    cmpOptStr a c = .ok .lt := by
  rcases a with _ | x <;> rcases b with _ | y <;> rcases c with _ | z <;>
    try cases h1 <;> try cases h2
  all_goals try cases h1
  all_goals try cases h2
  simp only [cmpOptStr] at *
  injection h1 with h1
  injection h2 with h2
  rw [cmpChars_lt_trans h1 h2]

theorem cmpOptDate_eq_imp {a b : Option PDate} (h : cmpOptDate a b = .ok .eq) :
    a = b := by
  rcases a with _ | x <;> rcases b with _ | y
  · rfl
  · cases h
  · cases h
  · simp only [cmpOptDate] at h
    injection h with h
    rw [(cmpPDate_eq_iff x y).mp h]

theorem cmpOptDate_self (a : Option PDate) : cmpOptDate a a = .ok .eq := by
  rcases a with _ | x
  · rfl
  · simp only [cmpOptDate, (cmpPDate_eq_iff x x).mpr rfl]

theorem cmpOptDate_swap (a b : Option PDate) :
    cmpOptDate b a = (cmpOptDate a b).map Ordering.swap := by
  rcases a with _ | x <;> rcases b with _ | y
  · rfl
  · rfl
  · rfl
  · show Except.ok (cmpPDate y x) = _
    rw [cmpPDate_swap x y]
    rfl

theorem cmpOptDate_lt_trans {a b c : Option PDate}
    (h1 : cmpOptDate a b = .ok .lt) (h2 : cmpOptDate b c = .ok .lt) :
    cmpOptDate a c = .ok .lt := by
  rcases a with _ | x <;> rcases b with _ | y <;> rcases c with _ | z <;>
    try cases h1 <;> try cases h2
  all_goals try cases h1
  all_goals try cases h2
  simp only [cmpOptDate] at *
  injection h1 with h1
  injection h2 with h2
  rw [cmpPDate_lt_trans h1 h2]

theorem keyCmpE_self (k : Key) : keyCmpE k k = .ok .eq := by
  simp only [keyCmpE, cmpOptStr_self, (cmpChars_eq_iff k.2.1 k.2.1).mpr rfl,
    cmpOptDate_self]

theorem keyCmpE_eq_imp {k1 k2 : Key} (h : keyCmpE k1 k2 = .ok .eq) :
    k1 = k2 := by
  obtain ⟨l1, n1, d1⟩ := k1
  obtain ⟨l2, n2, d2⟩ := k2
  simp only [keyCmpE] at h
  rcases h1 : cmpOptStr l1 l2 with e | o <;> rw [h1] at h
  · cases h
  · rcases o with _ | _ | _
    · cases h
    · rcases h2 : cmpChars n1 n2 with _ | _ | _ <;> rw [h2] at h
      · cases h
      · rw [cmpOptStr_eq_imp h1, (cmpChars_eq_iff n1 n2).mp h2,
          cmpOptDate_eq_imp h]
      · cases h
    · cases h

theorem keyCmpE_swap (k1 k2 : Key) :
    keyCmpE k2 k1 = (keyCmpE k1 k2).map Ordering.swap := by
  obtain ⟨l1, n1, d1⟩ := k1
  obtain ⟨l2, n2, d2⟩ := k2
  simp only [keyCmpE]
  rw [show cmpOptStr l2 l1 = (cmpOptStr l1 l2).map Ordering.swap from
    cmpOptStr_swap l1 l2]
  rcases h1 : cmpOptStr l1 l2 with e | o
  · rfl
  · rcases o with _ | _ | _
    · rfl
    · simp only [Except.map]
      rw [show cmpChars n2 n1 = (cmpChars n1 n2).swap from cmpChars_swap n1 n2]
      rcases h2 : cmpChars n1 n2 with _ | _ | _
      · rfl
      · rw [show cmpOptDate d2 d1 = (cmpOptDate d1 d2).map Ordering.swap from
          cmpOptDate_swap d1 d2]
        rcases h3 : cmpOptDate d1 d2 with e | o3
        · rfl
        · rcases o3 with _ | _ | _ <;> rfl
      · rfl
    · rfl

theorem keyCmpE_lt_trans {k1 k2 k3 : Key} (h1 : keyCmpE k1 k2 = .ok .lt)
    (h2 : keyCmpE k2 k3 = .ok .lt) : keyCmpE k1 k3 = .ok .lt := by
  obtain ⟨l1, n1, d1⟩ := k1
  obtain ⟨l2, n2, d2⟩ := k2
  obtain ⟨l3, n3, d3⟩ := k3
  simp only [keyCmpE] at *
  rcases ha : cmpOptStr l1 l2 with e | o <;> rw [ha] at h1
  · cases h1
  · rcases o with _ | _ | _
    · -- first component strictly less on the left leg
      rcases hb : cmpOptStr l2 l3 with e | o2 <;> rw [hb] at h2
      · cases h2
      · rcases o2 with _ | _ | _
        · rw [cmpOptStr_lt_trans ha hb]
        · rw [← cmpOptStr_eq_imp hb, ha]
        · cases h2
    · -- first components equal on the left leg
      have hl : l1 = l2 := cmpOptStr_eq_imp ha
      rcases hb : cmpOptStr l2 l3 with e | o2 <;> rw [hb] at h2
      · cases h2
      · rcases o2 with _ | _ | _
        · rw [hl, hb]
        · -- both first components equal: compare the name strings
          have hl2 : l2 = l3 := cmpOptStr_eq_imp hb
          rw [hl, hl2, cmpOptStr_self]
          rcases hc : cmpChars n1 n2 with _ | _ | _ <;> rw [hc] at h1
          · rcases hd : cmpChars n2 n3 with _ | _ | _ <;> rw [hd] at h2
            · rw [cmpChars_lt_trans hc hd]
            · rw [← (cmpChars_eq_iff n2 n3).mp hd, hc]
            · cases h2
          · have hn : n1 = n2 := (cmpChars_eq_iff n1 n2).mp hc
            rcases hd : cmpChars n2 n3 with _ | _ | _ <;> rw [hd] at h2
            · rw [hn, hd]
            · -- names equal on both legs: compare the dates
              have hn2 : n2 = n3 := (cmpChars_eq_iff n2 n3).mp hd
              rw [hn, hn2, (cmpChars_eq_iff n3 n3).mpr rfl]
              exact cmpOptDate_lt_trans h1 h2
            · cases h2
          · cases h1
        · cases h2
    · cases h1

/-! ## Correctness of the sorting phase -/

/-- Strict order on pair elements as decided by Python `<`. -/
def LtE (a b : Elem) : Prop := pyLt a b = .ok true

theorem pyLt_true_iff {a b : Elem} :
    pyLt a b = .ok true ↔ keyCmpE a.1 b.1 = .ok .lt := by
  rcases h : keyCmpE a.1 b.1 with e | o
  · simp only [pyLt, h]
    constructor
    · intro hh; cases hh
    · intro hh; cases hh
  · rcases o with _ | _ | _
    · simp only [pyLt, h]
    · simp only [pyLt, h]
      constructor
      · intro hh
        by_cases hid : a.2.id = b.2.id
        · rw [if_pos hid] at hh; cases hh
        · rw [if_neg hid] at hh; cases hh
      · intro hh; cases hh
    · simp only [pyLt, h]
      constructor
      · intro hh; cases hh
      · intro hh; cases hh

theorem pyLt_false_cases {a b : Elem} (h : pyLt a b = .ok false) :
    keyCmpE a.1 b.1 = .ok .gt ∨
      (keyCmpE a.1 b.1 = .ok .eq ∧ a.2.id = b.2.id) := by
  rcases hk : keyCmpE a.1 b.1 with e | o <;> simp only [pyLt, hk] at h
  · cases h
  · rcases o with _ | _ | _
    · cases h
    · by_cases hid : a.2.id = b.2.id
      · exact Or.inr ⟨rfl, hid⟩
      · rw [if_neg hid] at h; cases h
    · exact Or.inl rfl

theorem LtE_trans {a b c : Elem} (h1 : LtE a b) (h2 : LtE b c) : LtE a c :=
  pyLt_true_iff.mpr
    (keyCmpE_lt_trans (pyLt_true_iff.mp h1) (pyLt_true_iff.mp h2))

theorem pyLt_false_flip {x y : Elem} (h : pyLt x y = .ok false)
    (hid : x.2.id ≠ y.2.id) : LtE y x := by
  rcases pyLt_false_cases h with hgt | ⟨_, hsame⟩
  · apply pyLt_true_iff.mpr
    rw [keyCmpE_swap x.1 y.1, hgt]
    rfl
  · exact absurd hsame hid

theorem pyInsert_perm {x : Elem} {l l' : List Elem}
    (h : pyInsert x l = .ok l') : l'.Perm (x :: l) := by
  induction l generalizing l' with
  | nil =>
    injection h with h
    rw [← h]
  | cons y ys ih =>
    simp only [pyInsert] at h
    rcases hb : pyLt x y with e | b <;> rw [hb] at h
    · cases h
    · rcases b with _ | _
      · rcases hr : pyInsert x ys with e | r <;> rw [hr] at h
        · cases h
        · injection h with h
          rw [← h]
          exact ((ih hr).cons y).trans (List.Perm.swap x y ys)
      · injection h with h
        rw [← h]

theorem pySort_perm {l l' : List Elem} (h : pySort l = .ok l') :
    l'.Perm l := by
  induction l generalizing l' with
  | nil =>
    injection h with h
    rw [← h]
  | cons x xs ih =>
    simp only [pySort] at h
    rcases hr : pySort xs with e | r <;> rw [hr] at h
    · cases h
    · exact (pyInsert_perm h).trans ((ih hr).cons x)

theorem pyInsert_pairwise {x : Elem} {l l' : List Elem}
    (hids : ∀ y ∈ l, x.2.id ≠ y.2.id) (hs : l.Pairwise LtE)
    (h : pyInsert x l = .ok l') : l'.Pairwise LtE := by
  induction l generalizing l' with
  | nil =>
    injection h with h
    rw [← h]
    exact List.pairwise_singleton LtE x
  | cons y ys ih =>
    simp only [pyInsert] at h
    rcases hb : pyLt x y with e | b <;> rw [hb] at h
    · cases h
    · rcases b with _ | _
      · -- x is not below y: keep y in front and insert into the tail
        rcases hr : pyInsert x ys with e | r <;> rw [hr] at h
        · cases h
        · injection h with h
          rw [← h]
          rcases List.pairwise_cons.mp hs with ⟨hy, hys⟩
          refine List.pairwise_cons.mpr ⟨?_, ?_⟩
          · intro z hz
            have hz3 := ((pyInsert_perm hr).mem_iff).mp hz
            rcases List.mem_cons.mp hz3 with rfl | hz2
            · exact pyLt_false_flip hb (hids y (by simp))
            · exact hy z hz2
          · exact ih (fun z hz => hids z (by simp [hz])) hys hr
      · -- x goes in front: it is below y and, transitively, below the rest
        injection h with h
        rw [← h]
        rcases List.pairwise_cons.mp hs with ⟨hy, _⟩
        refine List.pairwise_cons.mpr ⟨?_, hs⟩
        intro z hz
        rcases List.mem_cons.mp hz with rfl | hz2
        · exact hb
        · exact LtE_trans hb (hy z hz2)

theorem pySort_pairwise {l l' : List Elem}
    (hids : (l.map (fun e => e.2.id)).Nodup) (h : pySort l = .ok l') :
    l'.Pairwise LtE := by
  induction l generalizing l' with
  | nil =>
    injection h with h
    rw [← h]
    exact List.Pairwise.nil
  | cons x xs ih =>
    simp only [pySort] at h
    rcases hr : pySort xs with e | r <;> rw [hr] at h
    · cases h
    · simp only [List.map_cons, List.nodup_cons] at hids
      refine pyInsert_pairwise ?_ (ih hids.2 hr) h
      intro y hy he
      exact hids.1 (by
        rw [he]
        exact List.mem_map_of_mem (fun e => e.2.id)
          (((pySort_perm hr).mem_iff).mp hy))

/-! ## The declarative ordering of sort keys (spec reading) -/

/-- The spec's "lexicographically less" on the optional last-name
component: both present and strictly below. -/
def optStrLtSpec (a b : Option Str) : Prop :=
  ∃ x y, a = some x ∧ b = some y ∧ cmpChars x y = .lt

/-- The spec's calendar ordering on the optional date component. -/
def optDateLtSpec (a b : Option PDate) : Prop :=
  ∃ x y, a = some x ∧ b = some y ∧ cmpPDate x y = .lt

/-- The order `(last_name, full_name, birth_or_sentinel) <`, lexicographically:
strictly smaller last name, or equal last names and strictly smaller
rendered name, or both equal and strictly smaller date. -/
def keyLtSpec (k1 k2 : Key) : Prop :=
  optStrLtSpec k1.1 k2.1 ∨
    (k1.1 = k2.1 ∧ (cmpChars k1.2.1 k2.2.1 = .lt ∨
      (k1.2.1 = k2.2.1 ∧ optDateLtSpec k1.2.2 k2.2.2)))

/-- The executable Python comparison decides exactly the declarative
lexicographic order. -/
theorem keyCmpE_lt_iff_spec (k1 k2 : Key) :
    keyCmpE k1 k2 = .ok .lt ↔ keyLtSpec k1 k2 := by
  obtain ⟨l1, n1, d1⟩ := k1
  obtain ⟨l2, n2, d2⟩ := k2
  constructor
  · intro h
    simp only [keyCmpE] at h
    rcases ha : cmpOptStr l1 l2 with e | o <;> rw [ha] at h
    · cases h
    · rcases o with _ | _ | _
      · -- strictly smaller first component
        rcases l1 with _ | x <;> rcases l2 with _ | y <;> try cases ha
        left
        injection ha with ha
        exact ⟨x, y, rfl, rfl, ha⟩
      · right
        refine ⟨cmpOptStr_eq_imp ha, ?_⟩
        rcases hc : cmpChars n1 n2 with _ | _ | _ <;> rw [hc] at h
        · exact Or.inl rfl
        · right
          refine ⟨(cmpChars_eq_iff n1 n2).mp hc, ?_⟩
          rcases d1 with _ | x <;> rcases d2 with _ | y <;> try cases h
          injection h with h
          exact ⟨x, y, rfl, rfl, h⟩
        · cases h
      · cases h
  · intro h
    simp only [keyCmpE]
    rcases h with ⟨x, y, rfl, rfl, hlt⟩ | ⟨heq, h⟩
    · simp only [cmpOptStr, hlt]
    · simp only at heq
      rw [heq, cmpOptStr_self]
      rcases h with hlt | ⟨heq2, x, y, hd1, hd2, hlt⟩
      · simp only at hlt
        rw [hlt]
      · simp only at heq2 hd1 hd2
        rw [heq2, (cmpChars_eq_iff n2 n2).mpr rfl, hd1, hd2]
        simp only [cmpOptDate, hlt]

theorem keyLtSpec_irrefl (k : Key) : ¬ keyLtSpec k k := by
  intro h
  have := (keyCmpE_lt_iff_spec k k).mpr h
  rw [keyCmpE_self] at this
  cases this

theorem keyLtSpec_asymm {k1 k2 : Key} (h1 : keyLtSpec k1 k2)
    (h2 : keyLtSpec k2 k1) : False := by
  have ha := (keyCmpE_lt_iff_spec k1 k2).mpr h1
  have hb := (keyCmpE_lt_iff_spec k2 k1).mpr h2
  rw [keyCmpE_swap k1 k2, ha] at hb
  cases hb

theorem mapKeys_snd {inds : List Individual} {l : List Elem}
    (h : mapKeys inds = .ok l) : l.map Prod.snd = inds := by
  induction inds generalizing l with
  | nil =>
    injection h with h
    rw [← h]
    rfl
  | cons i rest ih =>
    simp only [mapKeys] at h
    rcases hk : keyOf i with e | k <;> rw [hk] at h
    · cases h
    · rcases hr : mapKeys rest with e | r <;> rw [hr] at h
      · cases h
      · injection h with h
        rw [← h, List.map_cons, ih hr]

/-- On a run of the sorting phase that completes, roster positions are
ordered exactly by the declarative lexicographic key order. -/
theorem sortedPairs_iff_spec {inds : List Individual} {ps : List Elem}
    (hids : (inds.map Individual.id).Nodup)
    (hb : buildPairs inds = .ok ps)
    (i j : Fin ps.length) :
    i < j ↔ keyLtSpec (ps.get i).1 (ps.get j).1 := by
  simp only [buildPairs] at hb
  rcases hm : mapKeys inds with e | l <;> rw [hm] at hb
  · cases hb
  · have hsnd := mapKeys_snd hm
    have hnodup : (l.map (fun e => e.2.id)).Nodup := by
      have : l.map (fun e => e.2.id) = inds.map Individual.id := by
        rw [← hsnd, List.map_map]
        rfl
      rw [this]
      exact hids
    have hpw := pySort_pairwise hnodup hb
    constructor
    · intro hij
      exact (keyCmpE_lt_iff_spec _ _).mp
        (pyLt_true_iff.mp (List.pairwise_iff_get.mp hpw i j hij))
    · intro hspec
      by_contra hnot
      rcases Nat.lt_or_ge j.val i.val with hji | hij2
      · have hji2 := List.pairwise_iff_get.mp hpw j i hji
        exact keyLtSpec_asymm hspec
          ((keyCmpE_lt_iff_spec _ _).mp (pyLt_true_iff.mp hji2))
      · have : i = j := Fin.ext (by
          have hnot2 : ¬ i.val < j.val := hnot
          omega)
        subst this
        exact keyLtSpec_irrefl _ hspec

/-! ## Characterizing the name groups -/

/-- The roster positions (counting from `p`) whose rendered name is `s`. -/
def posIn (s : Str) : Nat → List Individual → List Nat
  | _, [] => []
  | p, e :: rest =>
    if fullName2 e = s then p :: posIn s (p + 1) rest
    else posIn s (p + 1) rest

/-- Association lookup in the group table. -/
def lookupG : List (Str × List Nat) → Str → Option (List Nat)
  | [], _ => none
  | (t, l) :: rest, s => if t = s then some l else lookupG rest s

theorem posIn_append (s : Str) (p : Nat) (l1 l2 : List Individual) :
    posIn s p (l1 ++ l2) = posIn s p l1 ++ posIn s (p + l1.length) l2 := by
  induction l1 generalizing p with
  | nil => simp [posIn]
  | cons e rest ih =>
    rw [List.cons_append]
    show (if fullName2 e = s then p :: posIn s (p + 1) (rest ++ l2)
      else posIn s (p + 1) (rest ++ l2)) =
      (if fullName2 e = s then p :: posIn s (p + 1) rest
        else posIn s (p + 1) rest) ++ posIn s (p + (e :: rest).length) l2
    rw [ih (p + 1), List.length_cons,
      show p + (rest.length + 1) = p + 1 + rest.length from by omega]
    by_cases hn : fullName2 e = s
    · rw [if_pos hn, if_pos hn, List.cons_append]
    · rw [if_neg hn, if_neg hn]

theorem posIn_mem {s : Str} {q p : Nat} {l : List Individual}
    (h : q ∈ posIn s p l) :
    ∃ k, ∃ hk : k < l.length, q = p + k ∧ fullName2 (l.get ⟨k, hk⟩) = s := by
  induction l generalizing p with
  | nil => cases h
  | cons e rest ih =>
    simp only [posIn] at h
    by_cases hn : fullName2 e = s
    · rw [if_pos hn] at h
      rcases List.mem_cons.mp h with rfl | h2
      · exact ⟨0, by simp, by omega, hn⟩
      · obtain ⟨k, hk, hq, hs⟩ := ih h2
        exact ⟨k + 1, by simpa using hk, by omega, hs⟩
    · rw [if_neg hn] at h
      obtain ⟨k, hk, hq, hs⟩ := ih h
      exact ⟨k + 1, by simpa using hk, by omega, hs⟩

theorem posIn_length (s : Str) (p : Nat) (l : List Individual) :
    (posIn s p l).length =
      (l.filter (fun e => fullName2 e = s)).length := by
  induction l generalizing p with
  | nil => rfl
  | cons e rest ih =>
    simp only [posIn, List.filter_cons]
    by_cases hn : fullName2 e = s
    · rw [if_pos hn, if_pos (by simpa using hn)]
      simp [ih (p + 1)]
    · rw [if_neg hn, if_neg (by simpa using hn)]
      exact ih (p + 1)

theorem idxOf_none {q : Nat} {l : List Nat} (h : q ∉ l) : idxOf q l = none := by
  induction l with
  | nil => rfl
  | cons x xs ih =>
    simp only [idxOf]
    rw [if_neg (fun he => h (by rw [← he]; simp)),
      ih (fun hm => h (by simp [hm]))]
    rfl

theorem idxOf_posIn {s : Str} {l : List Individual} {p k : Nat}
    (hk : k < l.length) (hs : fullName2 (l.get ⟨k, hk⟩) = s) :
    idxOf (p + k) (posIn s p l) =
      some ((l.take k).filter (fun e => fullName2 e = s)).length := by
  induction l generalizing p k with
  | nil => cases hk
  | cons e rest ih =>
    rcases k with _ | k2
    · have hs0 : fullName2 e = s := hs
      simp only [posIn, if_pos hs0, idxOf, Nat.add_zero]
      simp
    · have hk2 : k2 < rest.length := by simpa using hk
      have hs2 : fullName2 (rest.get ⟨k2, hk2⟩) = s := hs
      simp only [posIn, List.take_succ_cons, List.filter_cons]
      by_cases hn : fullName2 e = s
      · rw [if_pos hn, if_pos (by simpa using hn)]
        simp only [idxOf, if_neg (by omega : ¬ p = p + (k2 + 1))]
        rw [show p + (k2 + 1) = (p + 1) + k2 from by omega, ih hk2 hs2]
        simp
      · rw [if_neg hn, if_neg (by simpa using hn)]
        rw [show p + (k2 + 1) = (p + 1) + k2 from by omega, ih hk2 hs2]

theorem lookupG_addG (acc : List (Str × List Nat)) (s t : Str) (i : Nat) :
    lookupG (addG acc s i) t =
      if t = s then some (((lookupG acc s).getD []) ++ [i])
      else lookupG acc t := by
  induction acc with
  | nil =>
    by_cases ht : t = s
    · subst ht
      simp [addG, lookupG]
    · show (if s = t then some [i] else none) = _
      rw [if_neg (fun he => ht he.symm), if_neg ht]
      rfl
  | cons g rest ih =>
    obtain ⟨u, l⟩ := g
    by_cases hu : u = s
    · subst hu
      simp only [addG, if_pos rfl, lookupG]
      by_cases ht : t = u
      · subst ht
        simp
      · have hne : ¬ u = t := fun he => ht he.symm
        rw [if_neg hne, if_neg ht, if_neg hne]
    · simp only [addG, if_neg hu, lookupG]
      by_cases hut : u = t
      · subst hut
        simp [hu]
      · rw [if_neg hut, if_neg hut, ih]

theorem addG_keys (acc : List (Str × List Nat)) (s : Str) (i : Nat) :
    (addG acc s i).map Prod.fst =
      if lookupG acc s = none then acc.map Prod.fst ++ [s]
      else acc.map Prod.fst := by
  induction acc with
  | nil => simp [addG, lookupG]
  | cons g rest ih =>
    obtain ⟨u, l⟩ := g
    by_cases hu : u = s
    · subst hu
      simp [addG, lookupG]
    · simp only [addG, if_neg hu, lookupG, if_neg hu, List.map_cons, ih]
      split <;> rfl

theorem lookupG_none_iff (gs : List (Str × List Nat)) (s : Str) :
    lookupG gs s = none ↔ s ∉ gs.map Prod.fst := by
  induction gs with
  | nil => simp [lookupG]
  | cons g rest ih =>
    obtain ⟨u, l⟩ := g
    simp only [lookupG, List.map_cons, List.mem_cons]
    by_cases hu : u = s
    · subst hu
      simp
    · have hsu : ¬ s = u := fun he => hu he.symm
      rw [if_neg hu, ih]
      constructor
      · intro h hor
        rcases hor with he | hm
        · exact hsu he
        · exact h hm
      · intro h hm
        exact h (Or.inr hm)

theorem lookupG_of_mem {gs : List (Str × List Nat)}
    (hkeys : (gs.map Prod.fst).Nodup) {t : Str} {l : List Nat}
    (h : (t, l) ∈ gs) : lookupG gs t = some l := by
  induction gs with
  | nil => cases h
  | cons g rest ih =>
    obtain ⟨u, m⟩ := g
    simp only [List.map_cons, List.nodup_cons] at hkeys
    rcases List.mem_cons.mp h with he | h2
    · injection he with he1 he2
      subst he1; subst he2
      simp [lookupG]
    · simp only [lookupG]
      rw [if_neg ?_]
      · exact ih hkeys.2 h2
      · intro he
        subst he
        exact hkeys.1 (List.mem_map_of_mem Prod.fst h2)

theorem posIn_singleton (s : Str) (p : Nat) (e : Individual) :
    posIn s p [e] = if fullName2 e = s then [p] else [] := by
  simp [posIn]

theorem mkGroupsGo_spec (rest : List Individual) :
    ∀ (pre : List Individual) (acc : List (Str × List Nat)),
    (acc.map Prod.fst).Nodup →
    (∀ s, lookupG acc s =
      if posIn s 0 pre = [] then none else some (posIn s 0 pre)) →
    ((mkGroupsGo pre.length rest acc).map Prod.fst).Nodup ∧
    ∀ s, lookupG (mkGroupsGo pre.length rest acc) s =
      if posIn s 0 (pre ++ rest) = [] then none
      else some (posIn s 0 (pre ++ rest)) := by
  induction rest with
  | nil =>
    intro pre acc hkeys hlook
    simp only [mkGroupsGo, List.append_nil]
    exact ⟨hkeys, hlook⟩
  | cons e rest2 ih =>
    intro pre acc hkeys hlook
    have hstep : ∀ t, lookupG (addG acc (fullName2 e) pre.length) t =
        if posIn t 0 (pre ++ [e]) = [] then none
        else some (posIn t 0 (pre ++ [e])) := by
      intro t
      rw [lookupG_addG, posIn_append, Nat.zero_add, posIn_singleton]
      by_cases ht : t = fullName2 e
      · subst ht
        rw [if_pos rfl, if_pos rfl]
        rw [hlook (fullName2 e)]
        by_cases hemp : posIn (fullName2 e) 0 pre = []
        · rw [if_pos hemp, hemp]
          simp
        · rw [if_neg hemp, if_neg (by simp)]
          simp
      · have hne : ¬ fullName2 e = t := fun he => ht he.symm
        rw [if_neg ht, if_neg hne, List.append_nil, hlook t]
    have hstepkeys :
        ((addG acc (fullName2 e) pre.length).map Prod.fst).Nodup := by
      rw [addG_keys]
      by_cases habs : lookupG acc (fullName2 e) = none
      · rw [if_pos habs]
        refine List.nodup_append.mpr ⟨hkeys, List.nodup_singleton _, ?_⟩
        intro a ha hb
        rw [List.mem_singleton] at hb
        rw [hb] at ha
        exact ((lookupG_none_iff acc (fullName2 e)).mp habs) ha
      · rw [if_neg habs]
        exact hkeys
    have hlen : pre.length + 1 = (pre ++ [e]).length := by simp
    have := ih (pre ++ [e]) (addG acc (fullName2 e) pre.length)
      hstepkeys hstep
    rw [List.append_assoc, List.singleton_append] at this
    simp only [mkGroupsGo]
    rw [show pre.length + 1 = (pre ++ [e]).length from by simp] at *
    exact this

/-- The group table of a roster: lookups are exactly the nonempty
position lists, and the group names are distinct. -/
theorem mkGroups_spec (roster : List Individual) :
    ((mkGroups roster).map Prod.fst).Nodup ∧
    ∀ s, lookupG (mkGroups roster) s =
      if posIn s 0 roster = [] then none else some (posIn s 0 roster) := by
  have := mkGroupsGo_spec roster [] [] (by simp) (fun s => by simp [lookupG, posIn])
  simpa [mkGroups] using this

theorem posIn_mem_of {s : Str} {l : List Individual} {k : Nat} (p : Nat)
    (hk : k < l.length) (hs : fullName2 (l.get ⟨k, hk⟩) = s) :
    (p + k) ∈ posIn s p l := by
  induction l generalizing p k with
  | nil => cases hk
  | cons e rest ih =>
    rcases k with _ | k2
    · have hs0 : fullName2 e = s := hs
      simp [posIn, if_pos hs0]
    · have hk2 : k2 < rest.length := by simpa using hk
      have hs2 : fullName2 (rest.get ⟨k2, hk2⟩) = s := hs
      have hmem := ih (p + 1) hk2 hs2
      rw [show p + 1 + k2 = p + (k2 + 1) from by omega] at hmem
      simp only [posIn]
      by_cases hn : fullName2 e = s
      · rw [if_pos hn]
        exact List.mem_cons_of_mem p hmem
      · rw [if_neg hn]
        exact hmem

theorem serialAt_aux (roster : List Individual) (q : Nat)
    (hq : q < roster.length) :
    ∀ gs : List (Str × List Nat),
    (∀ t l, (t, l) ∈ gs → l = posIn t 0 roster) →
    lookupG gs (fullName2 (roster.get ⟨q, hq⟩)) =
      some (posIn (fullName2 (roster.get ⟨q, hq⟩)) 0 roster) →
    serialAt gs q =
      if (posIn (fullName2 (roster.get ⟨q, hq⟩)) 0 roster).length = 1 then none
      else some (((roster.take q).filter
        (fun e => fullName2 e = fullName2 (roster.get ⟨q, hq⟩))).length + 1) := by
  intro gs
  induction gs with
  | nil => intro _ hlook; cases hlook
  | cons g rest ih =>
    intro hmem hlook
    obtain ⟨t, l⟩ := g
    have hl : l = posIn t 0 roster := hmem t l (by simp)
    by_cases hts : t = fullName2 (roster.get ⟨q, hq⟩)
    · subst hts
      have hidx := idxOf_posIn (p := 0) hq rfl
      rw [Nat.zero_add] at hidx
      simp only [serialAt, hl, hidx]
    · have hnot : q ∉ l := by
        intro hin
        rw [hl] at hin
        obtain ⟨k, hk, hqk, hname⟩ := posIn_mem hin
        rw [Nat.zero_add] at hqk
        subst hqk
        exact hts hname.symm
      simp only [serialAt, idxOf_none hnot]
      refine ih (fun t2 l2 h2 => hmem t2 l2 (by simp [h2])) ?_
      rw [lookupG] at hlook
      rwa [if_neg hts] at hlook

theorem finalizeGo_length (gs : List (Str × List Nat)) :
    ∀ (p c : Nat) (l : List Individual),
    (finalizeGo gs p c l).length = l.length := by
  intro p c l
  induction l generalizing p c with
  | nil => rfl
  | cons e rest ih => simp [finalizeGo, ih]

theorem finalizeGo_get (gs : List (Str × List Nat)) :
    ∀ (l : List Individual) (p c q : Nat) (hq : q < l.length)
      (hq2 : q < (finalizeGo gs p c l).length),
    (finalizeGo gs p c l).get ⟨q, hq2⟩ =
      ⟨l.get ⟨q, hq⟩, serialAt gs (p + q),
        numberImages (c + ((l.take q).map
          (fun e => (buildImages e).length)).sum)
          (buildImages (l.get ⟨q, hq⟩))⟩ := by
  intro l
  induction l with
  | nil => intro p c q hq _; cases hq
  | cons e rest ih =>
    intro p c q hq hq2
    rcases q with _ | q2
    · simp [finalizeGo]
    · have hq' : q2 < rest.length := by simpa using hq
      have hq2' : q2 < (finalizeGo gs (p + 1) (c + (buildImages e).length)
          rest).length := by
        rw [finalizeGo_length]
        exact hq'
      show (finalizeGo gs (p + 1) (c + (buildImages e).length) rest).get
        ⟨q2, hq2'⟩ = _
      rw [ih (p + 1) (c + (buildImages e).length) q2 hq' hq2']
      have harith : p + 1 + q2 = p + (q2 + 1) := by omega
      have harith2 : c + (buildImages e).length +
          ((rest.take q2).map (fun e => (buildImages e).length)).sum =
          c + (((e :: rest).take (q2 + 1)).map
            (fun e => (buildImages e).length)).sum := by
        simp only [List.take_succ_cons, List.map_cons, List.sum_cons]
        omega
      rw [harith, harith2]
      rfl

theorem finalizeGo_map_ind (gs : List (Str × List Nat)) :
    ∀ (p c : Nat) (l : List Individual),
    (finalizeGo gs p c l).map FinalInd.ind = l := by
  intro p c l
  induction l generalizing p c with
  | nil => rfl
  | cons e rest ih => simp [finalizeGo, ih]

theorem numberImages_map_snd (c : Nat) (imgs : List Obje) :
    (numberImages c imgs).map Prod.snd = List.range' c imgs.length := by
  induction imgs generalizing c with
  | nil => rfl
  | cons o rest ih =>
    simp only [numberImages, List.map_cons, List.length_cons, ih (c + 1)]
    rw [List.range'_succ]

theorem numberImages_map_fst (c : Nat) (imgs : List Obje) :
    (numberImages c imgs).map Prod.fst = imgs := by
  induction imgs generalizing c with
  | nil => rfl
  | cons o rest ih => simp [numberImages, ih]

theorem range'_append_one (c a b : Nat) :
    List.range' c a ++ List.range' (c + a) b = List.range' c (a + b) := by
  have := List.range'_append c a b 1
  rw [Nat.add_comm b a] at this
  simpa using this

theorem finalizeGo_serials_join (gs : List (Str × List Nat)) :
    ∀ (l : List Individual) (p c : Nat),
    ((finalizeGo gs p c l).map (fun f => f.images.map Prod.snd)).flatten =
      List.range' c ((l.map (fun e => (buildImages e).length)).sum) := by
  intro l
  induction l with
  | nil => intro p c; rfl
  | cons e rest ih =>
    intro p c
    simp only [finalizeGo, List.map_cons, List.flatten_cons, List.sum_cons,
      numberImages_map_snd, ih (p + 1) (c + (buildImages e).length)]
    exact range'_append_one c (buildImages e).length _

theorem finalizeGo_map_images_len (gs : List (Str × List Nat)) :
    ∀ (l : List Individual) (p c : Nat),
    (finalizeGo gs p c l).map (fun f => f.images.length) =
      l.map (fun e => (buildImages e).length) := by
  intro l
  induction l with
  | nil => intro p c; rfl
  | cons e rest ih =>
    intro p c
    simp only [finalizeGo, List.map_cons, ih (p + 1)]
    have : (numberImages c (buildImages e)).length = (buildImages e).length := by
      have := numberImages_map_fst c (buildImages e)
      calc (numberImages c (buildImages e)).length
        = ((numberImages c (buildImages e)).map Prod.fst).length := by simp
      _ = (buildImages e).length := by rw [this]
    rw [this]

theorem finalizeGo_images_of_mem (gs : List (Str × List Nat)) :
    ∀ (l : List Individual) (p c : Nat) (f : FinalInd),
    f ∈ finalizeGo gs p c l →
    ∃ st, f.images = numberImages st (buildImages f.ind) := by
  intro l
  induction l with
  | nil => intro p c f h; cases h
  | cons e rest ih =>
    intro p c f h
    rcases List.mem_cons.mp h with rfl | h2
    · exact ⟨c, rfl⟩
    · exact ih (p + 1) (c + (buildImages e).length) f h2

theorem numberImages_mem_fst {c : Nat} {imgs : List Obje} {pr : Obje × Nat}
    (h : pr ∈ numberImages c imgs) : pr.1 ∈ imgs := by
  induction imgs generalizing c with
  | nil => cases h
  | cons o rest ih =>
    rcases List.mem_cons.mp h with rfl | h2
    · simp
    · exact List.mem_cons_of_mem o (ih h2)

theorem buildImages_titled {i : Individual} {o : Obje}
    (h : o ∈ buildImages i) : truthyStr o.title = true := by
  exact (List.mem_filter.mp h).2

/-! ## Concrete fixtures used by the claim theorems -/

/-- An individual named Anna Jensen born 1900. -/
def anna1900 : Individual :=
  ⟨1, some ⟨some ['A','n','n','a'], some ['J','e','n','s','e','n'], none⟩,
    some (some ['1','9','0','0']), []⟩

/-- An individual named Anna Jensen born 1950. -/
def anna1950 : Individual :=
  ⟨2, some ⟨some ['A','n','n','a'], some ['J','e','n','s','e','n'], none⟩,
    some (some ['1','9','5','0']), []⟩

/-- A distinct individual whose sort key coincides with `anna1900`. -/
def anna1900b : Individual :=
  ⟨2, some ⟨some ['A','n','n','a'], some ['J','e','n','s','e','n'], none⟩,
    some (some ['1','9','0','0']), []⟩

/-- An individual with three image nodes, one of them titleless. -/
def imgInd : Individual :=
  ⟨3, some ⟨some ['B','o'], some ['H'], none⟩, none,
    [⟨some ['t','1'], some ['n','1']⟩, ⟨none, some ['x']⟩,
     ⟨some ['t','2'], none⟩]⟩

/-- The sorted pair list the assembler builds from the two Annas. -/
def annaPairs : List Elem :=
  [((some ['J','e','n','s','e','n'],
     ['A','n','n','a',' ','J','e','n','s','e','n'],
     some ⟨1900, 1, 1⟩), anna1900),
   ((some ['J','e','n','s','e','n'],
     ['A','n','n','a',' ','J','e','n','s','e','n'],
     some ⟨1950, 1, 1⟩), anna1950)]

theorem dateOfChars_some_ne_format {cs : Str} {g : Option Str × Option Str × Str}
    (h : matchFormat cs = some g) :
    dateOfChars cs ≠ .error .formatError := by
  obtain ⟨dg, mg, yg⟩ := g
  simp only [dateOfChars, h]
  rcases dg with _ | d <;> rcases mg with _ | m
  · simp only [mkDate]
    split
    · intro hc; cases hc
    · intro hc; injection hc with hc; cases hc
  · simp only [mkDate]
    split
    · intro hc; cases hc
    · intro hc; injection hc with hc; cases hc
  · simp only [mkDate]
    split
    · intro hc; cases hc
    · intro hc; injection hc with hc; cases hc
  · rcases hmi : monthIndex m with e | i
    · have : e = PyErr.valueError := by
        revert hmi
        simp only [monthIndex]
        split
        · intro hc; cases hc
        · intro hc; injection hc with hc; exact hc.symm
      subst this
      simp only [hmi]
      intro hc; injection hc with hc; cases hc
    · simp only [hmi, mkDate]
      split
      · intro hc; cases hc
      · intro hc; injection hc with hc; cases hc

/-- C1 counterexample: the claim says `"JUN 1984"` (month without day)
and `"15 1984"` (day without month) raise a DateFormatError, but both
parse successfully as year-only dates. -/
theorem dateFormat_loose_accepted_cex :
    dateOfChars ['J','U','N',' ','1','9','8','4'] = .ok ⟨1984, 1, 1⟩ ∧
    dateOfChars ['1','5',' ','1','9','8','4'] = .ok ⟨1984, 1, 1⟩ := by
  constructor <;> decide

/-- C1 (amended): date parsing raises the DateFormatError exactly on
strings that do not match the pattern "optional 1-2 digit day, optional
3-letter month, 4-digit year"; a bare year parses as the year-only date,
day+month+year parses as the full date, and a month without a day or a
day without a month is accepted too, as a year-only date (out-of-range
values inside a matching string raise ValueError instead). -/
theorem dateFormat_amended :
    (∀ cs : Str, dateOfChars cs = .error .formatError ↔ ¬ MatchSpec cs) ∧
    dateOfChars ['1','9','8','4'] = .ok ⟨1984, 1, 1⟩ ∧
    dateOfChars ['1','5',' ','J','U','N',' ','1','9','8','4'] =
      .ok ⟨1984, 6, 15⟩ ∧
    dateOfChars ['J','U','N',' ','1','9','8','4'] = .ok ⟨1984, 1, 1⟩ ∧
    dateOfChars ['1','5',' ','1','9','8','4'] = .ok ⟨1984, 1, 1⟩ := by
  refine ⟨?_, by decide, by decide, by decide, by decide⟩
  intro cs
  constructor
  · intro h hspec
    rcases ho : matchFormat cs with _ | g
    · have := matchFormat_complete hspec
      rw [ho] at this
      cases this
    · exact dateOfChars_some_ne_format ho h
  · intro hspec
    rcases ho : matchFormat cs with _ | g
    · simp [dateOfChars, ho]
    · exact absurd (matchFormat_sound (by rw [ho]; rfl)) hspec

/-- C1 witness: a string matching neither sub-pattern raises the
DateFormatError. -/
theorem dateFormat_amended_witness :
    dateOfChars ['1','5','-','0','6','-','1','9','8','4'] =
      .error .formatError :=
  (dateFormat_amended.1 ['1','5','-','0','6','-','1','9','8','4']).mpr
    (fun hs => absurd (matchFormat_complete hs) (by decide))

/-- C2 counterexample: two distinct individuals with equal sort keys do
not keep their input order in a final roster — the assembler raises a
`TypeError` (the key tuples compare equal and the comparison falls
through to the `Individual` objects, which support no ordering), so no
roster is produced at all. -/
theorem assembler_equal_keys_cex :
    buildIndividuals [anna1900, anna1900b] = .error .typeError := by
  decide

/-- C2 (amended): on every run of the assembler that completes, roster
position strictly precedes exactly by the lexicographic order of the
`(last_name, full_name, birth_or_sentinel)` keys — ties cannot survive
to the final roster, because comparing two equal keys falls through to
the unordered `Individual` objects and raises `TypeError`; re-running on
identical input is deterministic (the assembler is a function of its
input). -/
theorem assembler_ordering_amended (inds : List Individual) (ps : List Elem)
    (hids : (inds.map Individual.id).Nodup)
    (hb : buildPairs inds = .ok ps) (i j : Fin ps.length) :
    buildIndividuals inds = .ok (finalize (ps.map Prod.snd)) ∧
    (i < j ↔ keyLtSpec (ps.get i).1 (ps.get j).1) := by
  constructor
  · simp only [buildIndividuals, hb]
  · exact sortedPairs_iff_spec hids hb i j

/-- C2 witness: on the two-Anna input the assembler completes and
position 0 precedes position 1 exactly as their keys compare. -/
theorem assembler_ordering_amended_witness :
    buildIndividuals [anna1950, anna1900] =
      .ok (finalize (annaPairs.map Prod.snd)) ∧
    ((⟨0, by decide⟩ : Fin annaPairs.length) < ⟨1, by decide⟩ ↔
      keyLtSpec (annaPairs.get ⟨0, by decide⟩).1
        (annaPairs.get ⟨1, by decide⟩).1) :=
  assembler_ordering_amended [anna1950, anna1900] annaPairs (by decide)
    (by decide) ⟨0, by decide⟩ ⟨1, by decide⟩

theorem finalize_length (roster : List Individual) :
    (finalize roster).length = roster.length :=
  finalizeGo_length _ _ _ _

theorem finalize_map_ind (roster : List Individual) :
    (finalize roster).map FinalInd.ind = roster :=
  finalizeGo_map_ind _ _ _ _

theorem finalize_get (roster : List Individual) (q : Nat)
    (hq : q < roster.length) (hq2 : q < (finalize roster).length) :
    (finalize roster).get ⟨q, hq2⟩ =
      ⟨roster.get ⟨q, hq⟩, serialAt (mkGroups roster) q,
        numberImages
          (1 + ((roster.take q).map (fun e => (buildImages e).length)).sum)
          (buildImages (roster.get ⟨q, hq⟩))⟩ := by
  have h := finalizeGo_get (mkGroups roster) roster 0 1 q hq hq2
  rw [Nat.zero_add] at h
  exact h

/-- C3: in the assembled roster, an individual whose rendered full name
is shared by at most one roster member keeps `serial = none`, and inside
a group of two or more members with the same rendered name the serials
are the 1-based ordinals of the members in roster order. -/
theorem serial_assignment_c3 (inds : List Individual) (out : List FinalInd)
    (hb : buildIndividuals inds = .ok out) (q : Nat) (hq : q < out.length) :
    (out.get ⟨q, hq⟩).serial =
      if ((out.map FinalInd.ind).filter
          (fun e => fullName2 e = fullName2 (out.get ⟨q, hq⟩).ind)).length ≤ 1
      then none
      else some ((((out.map FinalInd.ind).take q).filter
          (fun e => fullName2 e = fullName2 (out.get ⟨q, hq⟩).ind)).length
        + 1) := by
  simp only [buildIndividuals] at hb
  rcases hp : buildPairs inds with e | ps <;> rw [hp] at hb
  · cases hb
  · injection hb with hb
    subst hb
    have hq' : q < (ps.map Prod.snd).length := by
      rw [← finalize_length (ps.map Prod.snd)]
      exact hq
    have hget := finalize_get (ps.map Prod.snd) q hq' hq
    have hmapind := finalize_map_ind (ps.map Prod.snd)
    have hmemq : q ∈ posIn
        (fullName2 ((ps.map Prod.snd).get ⟨q, hq'⟩)) 0 (ps.map Prod.snd) := by
      have := posIn_mem_of 0 hq' rfl
      rwa [Nat.zero_add] at this
    have hne : posIn (fullName2 ((ps.map Prod.snd).get ⟨q, hq'⟩)) 0
        (ps.map Prod.snd) ≠ [] := List.ne_nil_of_mem hmemq
    obtain ⟨hkeys, hlook⟩ := mkGroups_spec (ps.map Prod.snd)
    have hlookS : lookupG (mkGroups (ps.map Prod.snd))
        (fullName2 ((ps.map Prod.snd).get ⟨q, hq'⟩)) =
        some (posIn (fullName2 ((ps.map Prod.snd).get ⟨q, hq'⟩)) 0
          (ps.map Prod.snd)) := by
      rw [hlook, if_neg hne]
    have hmem : ∀ t l, (t, l) ∈ mkGroups (ps.map Prod.snd) →
        l = posIn t 0 (ps.map Prod.snd) := by
      intro t l hin
      have h1 := lookupG_of_mem hkeys hin
      rw [hlook t] at h1
      by_cases hplt : posIn t 0 (ps.map Prod.snd) = []
      · rw [if_pos hplt] at h1; cases h1
      · rw [if_neg hplt] at h1
        injection h1 with h1
        exact h1.symm
    have hser := serialAt_aux (ps.map Prod.snd) q hq'
      (mkGroups (ps.map Prod.snd)) hmem hlookS
    have hc1 : 1 ≤ (posIn (fullName2 ((ps.map Prod.snd).get ⟨q, hq'⟩)) 0
        (ps.map Prod.snd)).length := List.length_pos.mpr hne
    have hc2 := posIn_length (fullName2 ((ps.map Prod.snd).get ⟨q, hq'⟩)) 0
      (ps.map Prod.snd)
    simp only [hget, hmapind]
    rw [hser]
    refine if_congr ?_ rfl rfl
    omega

/-- C3 witness: of the two individuals rendered "Anna Jensen", born
1900 and 1950, the 1900 one gets serial 1 and the 1950 one serial 2. -/
theorem serial_assignment_c3_witness :
    (([⟨anna1900, some 1, []⟩, ⟨anna1950, some 2, []⟩] : List FinalInd).get
      ⟨0, by decide⟩).serial = some 1 ∧
    (([⟨anna1900, some 1, []⟩, ⟨anna1950, some 2, []⟩] : List FinalInd).get
      ⟨1, by decide⟩).serial = some 2 :=
  ⟨serial_assignment_c3 [anna1950, anna1900]
      [⟨anna1900, some 1, []⟩, ⟨anna1950, some 2, []⟩] (by decide) 0
      (by decide),
   serial_assignment_c3 [anna1950, anna1900]
      [⟨anna1900, some 1, []⟩, ⟨anna1950, some 2, []⟩] (by decide) 1
      (by decide)⟩

/-- C4: after assembly the global image serials, flattened in roster
order and per-individual image order, are exactly `1..N` where `N` is
the total image count across the roster. -/
theorem image_serials_c4 (inds : List Individual) (out : List FinalInd)
    (hb : buildIndividuals inds = .ok out) :
    (out.map (fun f => f.images.map Prod.snd)).flatten =
      List.range' 1 ((out.map (fun f => f.images.length)).sum) := by
  simp only [buildIndividuals] at hb
  rcases hp : buildPairs inds with e | ps <;> rw [hp] at hb
  · cases hb
  · injection hb with hb
    subst hb
    rw [show (finalize (ps.map Prod.snd)).map (fun f => f.images.length) =
      (ps.map Prod.snd).map (fun e => (buildImages e).length) from
      finalizeGo_map_images_len _ _ _ _]
    exact finalizeGo_serials_join _ _ _ _

/-- C4 witness: one individual with two kept images gets serials
`[1, 2] = range' 1 2`. -/
theorem image_serials_c4_witness :
    (([⟨imgInd, none,
        [(⟨some ['t','1'], some ['n','1']⟩, 1),
         (⟨some ['t','2'], none⟩, 2)]⟩] : List FinalInd).map
      (fun f => f.images.map Prod.snd)).flatten =
    List.range' 1
      ((([⟨imgInd, none,
          [(⟨some ['t','1'], some ['n','1']⟩, 1),
           (⟨some ['t','2'], none⟩, 2)]⟩] : List FinalInd).map
        (fun f => f.images.length)).sum) :=
  image_serials_c4 [imgInd]
    [⟨imgInd, none,
      [(⟨some ['t','1'], some ['n','1']⟩, 1),
       (⟨some ['t','2'], none⟩, 2)]⟩] (by decide)

/-- C10: an image node without a title is excluded from every
individual's kept images, hence it never receives a global serial, is
not among any roster entry's serial-numbered images, and contributes no
gallery page. -/
theorem titleless_excluded_c10 (inds : List Individual) (out : List FinalInd)
    (hb : buildIndividuals inds = .ok out) (o : Obje) (ho : o.title = none) :
    (∀ i : Individual, o ∉ buildImages i) ∧
    (∀ f, f ∈ out → ∀ pr, pr ∈ f.images → pr.1 ≠ o) ∧
    (∀ f, f ∈ out → ∀ pr, pr ∈ galleryPages f → pr.1 ≠ o) := by
  have h1 : ∀ i : Individual, o ∉ buildImages i := by
    intro i hin
    have ht := buildImages_titled hin
    rw [ho] at ht
    cases ht
  have h2 : ∀ f, f ∈ out → ∀ pr, pr ∈ f.images → pr.1 ≠ o := by
    intro f hf pr hpr he
    simp only [buildIndividuals] at hb
    rcases hp : buildPairs inds with e | ps <;> rw [hp] at hb
    · cases hb
    · injection hb with hb
      subst hb
      obtain ⟨st, hfi⟩ := finalizeGo_images_of_mem
        (mkGroups (ps.map Prod.snd)) (ps.map Prod.snd) 0 1 f hf
      rw [hfi] at hpr
      have hm := numberImages_mem_fst hpr
      rw [he] at hm
      exact h1 f.ind hm
  exact ⟨h1, h2, fun f hf pr hpr =>
    h2 f hf pr (List.mem_of_mem_filter hpr)⟩

/-- C10 witness: the titleless image node of the fixture individual is
not among its kept images. -/
theorem titleless_excluded_c10_witness :
    (⟨none, some ['x']⟩ : Obje) ∉ buildImages imgInd :=
  (titleless_excluded_c10 [imgInd]
    [⟨imgInd, none,
      [(⟨some ['t','1'], some ['n','1']⟩, 1),
       (⟨some ['t','2'], none⟩, 2)]⟩] (by decide) ⟨none, some ['x']⟩ rfl).1
    imgInd

/-- C5: for positive inputs the layout engine reports rotation exactly
when `w > h` strictly, places `(W, W*ratio)` when `W*ratio ≤ H` and
`(H/ratio, H)` otherwise (with ratio the post-swap height over width),
and the placement fits the box preserving the aspect ratio.  Arithmetic
is modelled over exact rationals. -/
theorem place_image_c5 (w h W H : ℚ) (hw : 0 < w) (hh : 0 < h)
    (hW : 0 < W) (hH : 0 < H) :
    ∃ pw ph, placeImage w h W H = .ok (decide (w > h), pw, ph) ∧
      (if W * ((if w > h then w else h) / (if w > h then h else w)) ≤ H then
        pw = W ∧ ph = W * ((if w > h then w else h) / (if w > h then h else w))
       else
        pw = H / ((if w > h then w else h) / (if w > h then h else w)) ∧
          ph = H) ∧
      pw ≤ W ∧ ph ≤ H ∧
      ph / pw = (if w > h then w else h) / (if w > h then h else w) := by
  by_cases hwh : w > h
  · simp only [placeImage, if_pos hwh]
    rw [if_neg (ne_of_gt hh)]
    by_cases hA : W * (w / h) ≤ H
    · rw [if_pos hA]
      refine ⟨W, W * (w / h), rfl, ?_, le_refl W, hA, ?_⟩
      · rw [if_pos hA]
        exact ⟨rfl, rfl⟩
      · rw [mul_div_cancel_left₀ _ (ne_of_gt hW)]
    · rw [if_neg hA]
      have hratio : (0:ℚ) < w / h := div_pos hw hh
      rw [if_neg (ne_of_gt hratio)]
      refine ⟨H / (w / h), H, rfl, ?_, ?_, le_refl H, ?_⟩
      · rw [if_neg hA]
        exact ⟨rfl, rfl⟩
      · exact le_of_lt ((div_lt_iff₀ hratio).mpr (not_le.mp hA))
      · rw [div_div_eq_mul_div, mul_div_cancel_left₀ _ (ne_of_gt hH)]
  · simp only [placeImage, if_neg hwh]
    rw [if_neg (ne_of_gt hw)]
    by_cases hA : W * (h / w) ≤ H
    · rw [if_pos hA]
      refine ⟨W, W * (h / w), rfl, ?_, le_refl W, hA, ?_⟩
      · rw [if_pos hA]
        exact ⟨rfl, rfl⟩
      · rw [mul_div_cancel_left₀ _ (ne_of_gt hW)]
    · rw [if_neg hA]
      have hratio : (0:ℚ) < h / w := div_pos hh hw
      rw [if_neg (ne_of_gt hratio)]
      refine ⟨H / (h / w), H, rfl, ?_, ?_, le_refl H, ?_⟩
      · rw [if_neg hA]
        exact ⟨rfl, rfl⟩
      · exact le_of_lt ((div_lt_iff₀ hratio).mpr (not_le.mp hA))
      · rw [div_div_eq_mul_div, mul_div_cancel_left₀ _ (ne_of_gt hH)]

/-- C5 witness: the spec's rotation example, a 200x100 source in a
15 x 29.7 box, rotates. -/
theorem place_image_c5_witness :
    ∃ pw ph, placeImage 200 100 15 (297/10) =
      .ok (decide ((200:ℚ) > 100), pw, ph) ∧
      (if (15:ℚ) * ((if (200:ℚ) > 100 then 200 else 100) /
          (if (200:ℚ) > 100 then 100 else 200)) ≤ 297/10 then
        pw = 15 ∧ ph = (15:ℚ) * ((if (200:ℚ) > 100 then 200 else 100) /
          (if (200:ℚ) > 100 then 100 else 200))
       else
        pw = (297/10) / ((if (200:ℚ) > 100 then 200 else 100) /
          (if (200:ℚ) > 100 then 100 else 200)) ∧ ph = 297/10) ∧
      pw ≤ 15 ∧ ph ≤ 297/10 ∧
      ph / pw = (if (200:ℚ) > 100 then 200 else 100) /
        (if (200:ℚ) > 100 then 100 else 200) :=
  place_image_c5 200 100 15 (297/10) (by norm_num) (by norm_num)
    (by norm_num) (by norm_num)

/-- C6 counterexample: a negative source dimension does not raise any
error — the engine happily returns a (meaningless) placement. -/
theorem place_image_negative_cex :
    placeImage (-2) 3 10 10 = .ok (false, 10, -15) := by
  norm_num [placeImage]

/-- C6 (amended): the layout engine performs no dimension validation;
with a nonnegative height bound it fails — with a `ZeroDivisionError`,
the code defines no ImageGeometryError — exactly when the post-rotation
width is zero, and every other input, negative dimensions included,
produces a placement. -/
theorem place_image_amended_c6 (w h W H : ℚ) (hH : 0 ≤ H) :
    placeImage w h W H = .error .zeroDivisionError ↔
      (if w > h then h else w) = 0 := by
  by_cases hwh : w > h <;>
    [simp only [placeImage, if_pos hwh]; simp only [placeImage, if_neg hwh]]
  · by_cases hz : h = 0
    · rw [if_pos hz]
      simp [hz]
    · rw [if_neg hz]
      constructor
      · intro hc
        by_cases hA : W * (w / h) ≤ H
        · rw [if_pos hA] at hc; cases hc
        · rw [if_neg hA] at hc
          have hr : ¬ w / h = 0 := by
            intro hzz
            exact hA (by rw [hzz, mul_zero]; exact hH)
          rw [if_neg hr] at hc
          cases hc
      · intro hc
        exact absurd hc hz
  · by_cases hz : w = 0
    · rw [if_pos hz]
      simp [hz]
    · rw [if_neg hz]
      constructor
      · intro hc
        by_cases hA : W * (h / w) ≤ H
        · rw [if_pos hA] at hc; cases hc
        · rw [if_neg hA] at hc
          have hr : ¬ h / w = 0 := by
            intro hzz
            exact hA (by rw [hzz, mul_zero]; exact hH)
          rw [if_neg hr] at hc
          cases hc
      · intro hc
        exact absurd hc hz

/-- C6 witness: a zero width makes the engine divide by zero. -/
theorem place_image_amended_c6_witness :
    placeImage 0 5 10 10 = .error .zeroDivisionError ↔
      (if (0:ℚ) > 5 then (5:ℚ) else 0) = 0 :=
  place_image_amended_c6 0 5 10 10 (by decide)

/-- C7 counterexample: `"1 JAN 1984"` is a fully specified date (its day
and month groups both matched), yet it renders as the bare year `"1984"`
rather than through the locale-aware formatter — a full date on January
1st is indistinguishable from a year-only date in the parsed
representation. -/
theorem format_date_jan1_cex :
    matchFormat ['1',' ','J','A','N',' ','1','9','8','4'] =
      some (some ['1'], some ['J','A','N'], ['1','9','8','4']) ∧
    dateOfChars ['1',' ','J','A','N',' ','1','9','8','4'] =
      .ok ⟨1984, 1, 1⟩ ∧
    formatDate (some ⟨1984, 1, 1⟩) = .bare 1984 ∧
    Rendered.bare 1984 ≠ Rendered.localized ⟨1984, 1, 1⟩ := by
  refine ⟨by decide, by decide, by decide, by decide⟩

/-- C7 (amended): a parsed date renders as the bare year exactly when it
falls on January 1st — this covers every year-only parse (which is
stored as January 1st) but also genuine full dates on January 1st; every
other date renders through the locale-aware formatter. -/
theorem format_date_amended_c7 :
    (∀ d : PDate,
      ((d.month = 1 ∧ d.day = 1) → formatDate (some d) = .bare d.year) ∧
      (¬ (d.month = 1 ∧ d.day = 1) → formatDate (some d) = .localized d)) ∧
    (∀ (cs : Str) (dg mg : Option Str) (yg : Str) (r : PDate),
      matchFormat cs = some (dg, mg, yg) → ¬ (dg.isSome = true ∧ mg.isSome = true) →
      dateOfChars cs = .ok r → formatDate (some r) = .bare r.year) := by
  constructor
  · intro d
    constructor
    · rintro ⟨hm, hd⟩
      simp [formatDate, hm, hd]
    · intro hnot
      simp only [formatDate]
      split
      · next hb =>
        simp only [Bool.and_eq_true, decide_eq_true_eq] at hb
        exact absurd hb hnot
      · rfl
  · intro cs dg mg yg r hm hnb hd
    simp only [dateOfChars, hm] at hd
    have hbare : mkDate (digitsToNat yg) 1 1 = .ok r →
        formatDate (some r) = .bare r.year := by
      intro hmk
      simp only [mkDate] at hmk
      split at hmk
      · injection hmk with hmk
        rw [← hmk]
        simp [formatDate]
      · cases hmk
    rcases dg with _ | d2 <;> rcases mg with _ | m2
    · exact hbare hd
    · exact hbare hd
    · exact hbare hd
    · exact absurd ⟨rfl, rfl⟩ hnb

/-- C7 witness: the bare-year and localized branches at concrete dates,
and the year-only parse of `"1984"` rendering as the bare year. -/
theorem format_date_amended_c7_witness :
    formatDate (some ⟨1984, 1, 1⟩) = .bare 1984 ∧
    formatDate (some ⟨1984, 6, 15⟩) = .localized ⟨1984, 6, 15⟩ ∧
    formatDate (some ⟨1984, 1, 1⟩) = .bare 1984 :=
  ⟨(format_date_amended_c7.1 ⟨1984, 1, 1⟩).1 (by decide),
   (format_date_amended_c7.1 ⟨1984, 6, 15⟩).2 (by decide),
   format_date_amended_c7.2 ['1','9','8','4'] none none ['1','9','8','4']
     ⟨1984, 1, 1⟩ (by decide) (by decide) (by decide)⟩

/-- C8: the tokenizer drops the final record entry — the loop only
flushes the pending block when a new matching line arrives, and the
function returns without a final flush, so the last matching line (here
`"0 TRLR"`) yields no entry, contrary to the spec. -/
theorem tokenize_drops_last_c8 :
    tokenize [['0',' ','H','E','A','D'], ['0',' ','T','R','L','R']] =
      [['0',' ','H','E','A','D']] := by
  decide

/-- C9 counterexample: a line whose text already contains the
two-character sequence backslash-`n` is corrupted by the round trip —
the expansion also converts the pre-existing sequence into a real line
break. -/
theorem roundtrip_marker_cex :
    expandMarker (joinMarker [['a','\\','n','b'], ['c']]) ≠
      joinNl [['a','\\','n','b'], ['c']] := by
  decide

/-- C9 (amended): for every block of (stripped) physical lines none of
which contains the two-character marker sequence backslash-`n`,
expanding the marker-joined value reproduces the lines joined with real
line breaks exactly. -/
theorem roundtrip_amended_c9 (lines : List Str)
    (h : ∀ l ∈ lines, containsMarker l = false) :
    expandMarker (joinMarker lines) = joinNl lines :=
  expand_joinMarker h

/-- C9 witness: a two-line marker-free block round-trips. -/
theorem roundtrip_amended_c9_witness :
    expandMarker (joinMarker [['a','b'], ['c','d']]) =
      joinNl [['a','b'], ['c','d']] :=
  roundtrip_amended_c9 [['a','b'], ['c','d']] (by decide)
